import Mathlib

/-!
Verification of `githubwikipageindex` (src/githubwikipageindex/__init__.py).

The program is shallowly embedded below.  Python strings are modelled as
`List Char` (named `Str`), file contents as such strings, the working
directory as a list of `DirEntry` records.  Python's `dict` values in the
tag tree are modelled by the sum type `PyVal` (a value is either a set of
page names or a nested dict); since the program only ever observes a dict
through key lookup and through `sorted(dict.keys())`, and only ever
observes a set through membership and `sorted(list(s))`, dicts are kept as
key-sorted association lists and sets as sorted duplicate-free lists
(extensionally equal to Python's insertion-ordered representations).
Operations that would raise a Python exception return `none`.
-/

/-- Python `str`, modelled as a list of characters. -/
abbrev Str := List Char

/-- Python string comparison: lexicographic by character code points. -/
def strLt : Str → Str → Bool
  | [], [] => false
  | [], _ :: _ => true
  | _ :: _, [] => false
  | a :: as, b :: bs => a < b || (a = b && strLt as bs)

/-- Characters Python `str.split()` treats as whitespace (ASCII part). -/
def pyIsSpace (c : Char) : Bool :=
  c = ' ' || c = '\t' || c = '\n' || c = '\r' || c = Char.ofNat 11 || c = Char.ofNat 12

/-- Worker for `str.split()`: `tok` holds the characters of the token
being read, most recent first. -/
def pySplitAux : Str → Str → List Str
  | tok, [] => if tok.isEmpty then [] else [tok.reverse]
  | tok, c :: rest =>
    if pyIsSpace c then
      if tok.isEmpty then pySplitAux [] rest
      else tok.reverse :: pySplitAux [] rest
    else pySplitAux (c :: tok) rest

/-- Python `str.split()` with no separator: split on runs of whitespace,
producing no empty tokens. -/
def pySplit (s : Str) : List Str := pySplitAux [] s

/-- Python `tag_seq.split("-")`: split on each dash, keeping empty pieces. -/
def splitOnDash : Str → List Str
  | [] => [[]]
  | c :: rest =>
    if c = '-' then [] :: splitOnDash rest
    else
      match splitOnDash rest with
      | t :: ts => (c :: t) :: ts
      | [] => [[c]]

/-- The lines of a file as produced by Python `readline()`/file iteration:
chunks ending in `'\n'`, with a possibly unterminated final chunk. -/
def pyLines : Str → List Str
  | [] => []
  | c :: rest =>
    if c = '\n' then ['\n'] :: pyLines rest
    else
      match pyLines rest with
      | t :: ts => (c :: t) :: ts
      | [] => [[c]]

/-- Concatenation of a list of strings. -/
def catStrs (ls : List Str) : Str := ls.foldr (· ++ ·) []

/-- Does `p` occur at the start of `s`?  (Python `str.startswith`.) -/
def startsWithL : Str → Str → Bool
  | [], _ => true
  | _ :: _, [] => false
  | a :: as, b :: bs => a = b && startsWithL as bs

/-- `os.path.splitext(name)[0]` for a plain file name (no path separator):
cut the name at its last dot, unless every character before that dot is
itself a dot, in which case the name is returned whole. -/
def splitextRoot (s : Str) : Str :=
  let r := s.reverse
  let ext := r.takeWhile (fun c => c ≠ '.')
  match r.drop ext.length with
  | [] => s
  | _ :: pre => if pre.all (fun c => c = '.') then s else pre.reverse

/-- `str.maketrans("-", " ")` / `translate`: map dashes to spaces. -/
def dashToSpace (c : Char) : Char := if c = '-' then ' ' else c

/-- `str.maketrans("_", " ")` / `translate`: map underscores to spaces. -/
def underscoreToSpace (c : Char) : Char := if c = '_' then ' ' else c

/-- `start_marker = "<!--start Page Index-->\n"`. -/
def start_marker : Str := "<!--start Page Index-->\n".data

/-- `end_marker = "<!--end Page Index-->\n"`. -/
def end_marker : Str := "<!--end Page Index-->\n".data

/-!
## The file-exclusion pattern

`file_exclusion_re = re.compile(r"^\..*$|^_Sidebar\.md$|^_Footer.md$|Home.md")`
used via `re.match`, which anchors every alternative at the start of the
name (but not at its end).  The pattern is compiled alternative by
alternative.  `.` matches any character except `'\n'`; `$` matches at the
end of the string or just before a final `'\n'`.
-/

/-- Regex `$`: at the end of the string, or before a trailing newline. -/
def matchDollar (s : Str) : Bool := s = [] || s = ['\n']

/-- Consume a literal, returning the remaining input. -/
def matchLit : Str → Str → Option Str
  | [], s => some s
  | _ :: _, [] => none
  | c :: cs, d :: ds => if c = d then matchLit cs ds else none

/-- Consume regex `.`: one character other than `'\n'`. -/
def matchDot : Str → Option Str
  | [] => none
  | c :: rest => if c = '\n' then none else some rest

/-- Regex `.*$` at the current position: some newline-free run of
characters followed by a position where `$` holds.  (The disjunction below
enumerates the backtracking choices: stop here and test `$`, or consume one
non-newline character and continue.) -/
def matchDotStarDollar : Str → Bool
  | [] => true
  | c :: rest => (c = '\n' && rest = []) || (c ≠ '\n' && matchDotStarDollar rest)

/-- Continue matching with the rest of the input when the previous piece
consumed something, else fail. -/
def optTest (o : Option Str) (f : Str → Bool) : Bool :=
  match o with
  | some r => f r
  | none => false

/-- `file_exclusion_re.match(name)` as a Bool: does any alternative of
`^\..*$|^_Sidebar\.md$|^_Footer.md$|Home.md` match at the start of `name`?
Note the unescaped dots in `_Footer.md` and `Home.md` (any character), and
that the last alternative has no `$`. -/
def file_exclusion_match (s : Str) : Bool :=
  optTest (matchLit ".".data s) (fun r =>            -- ^\..*$
    matchDotStarDollar r)
  || optTest (matchLit "_Sidebar.md".data s) (fun r => -- ^_Sidebar\.md$
    matchDollar r)
  || optTest (matchLit "_Footer".data s) (fun r =>   -- ^_Footer.md$
    optTest (matchDot r) (fun r2 =>
      optTest (matchLit "md".data r2) (fun r3 =>
        matchDollar r3)))
  || optTest (matchLit "Home".data s) (fun r =>      -- Home.md (match ⇒ start-anchored)
    optTest (matchDot r) (fun r2 =>
      (matchLit "md".data r2).isSome))

/-!
## The tag tree

Python value in the tag tree: either a `set` of page names or a nested
`dict`.  Dicts are kept as key-sorted association lists with distinct keys
and sets as sorted duplicate-free lists; both orders are unobservable in
the program (every iteration goes through `sorted(...)`).
-/

/-- A Python value stored in the tag tree. -/
inductive PyVal : Type where
  | vset (pages : List Str)
  | vdict (entries : List (Str × PyVal))
deriving Repr

instance : Inhabited PyVal := ⟨PyVal.vset []⟩

/-- A Python dict node of the tag tree. -/
abbrev Dict := List (Str × PyVal)

/-- The reserved key `"untagged"`. -/
def untaggedKey : Str := "untagged".data

/-- Dict lookup (`d[k]` / the lookup part of `setdefault`). -/
def lookupA (k : Str) : Dict → Option PyVal
  | [] => none
  | (k', v) :: rest => if k = k' then some v else lookupA k rest

/-- Replace the value bound to an existing key (in place, keeping order). -/
def updateA (k : Str) (v : PyVal) : Dict → Dict
  | [] => []
  | (k', v') :: rest => if k = k' then (k, v) :: rest else (k', v') :: updateA k v rest

/-- Bind a key absent from the dict (the inserting half of `setdefault`),
kept at its sorted position. -/
def insKey (k : Str) (v : PyVal) : Dict → Dict
  | [] => [(k, v)]
  | (k', v') :: rest =>
    if strLt k k' then (k, v) :: (k', v') :: rest else (k', v') :: insKey k v rest

/-- `set.add`: insert into a sorted duplicate-free list of strings. -/
def insPage (x : Str) : List Str → List Str
  | [] => [x]
  | y :: ys => if strLt x y then x :: y :: ys else if x = y then y :: ys else y :: insPage x ys

/-- `set.discard`: remove a string if present. -/
def dropPage (x : Str) (l : List Str) : List Str := l.filter (fun y => y ≠ x)

/-- A freshly created node: `{"untagged": set()}`. -/
def newNode : Dict := [(untaggedKey, PyVal.vset [])]

/-- `tag_tree["untagged"].add(fn)` at the root.  Fails (`none`) when the
value under `"untagged"` is not a set (Python would raise). -/
def rootUntaggedAdd (fn : Str) (t : Dict) : Option Dict :=
  match lookupA untaggedKey t with
  | some (PyVal.vset ps) => some (updateA untaggedKey (PyVal.vset (insPage fn ps)) t)
  | _ => none

/-- `tag_tree["untagged"].discard(fn)` at the root. -/
def rootUntaggedDiscard (fn : Str) (t : Dict) : Option Dict :=
  match lookupA untaggedKey t with
  | some (PyVal.vset ps) => some (updateA untaggedKey (PyVal.vset (dropPage fn ps)) t)
  | _ => none

/-- `_add_page_to_tag_dict`, walking an already split tag path:
`current_dict = current_dict.setdefault(seg, {"untagged": set()})` for each
segment, then `current_dict.setdefault("untagged", set()).add(page)`.
Stepping into or adding to a value of the wrong Python type fails
(`none`), as the corresponding attribute access would raise. -/
def addPath (fn : Str) : List Str → Dict → Option Dict
  | [], t =>
    match lookupA untaggedKey t with
    | some (PyVal.vset ps) => some (updateA untaggedKey (PyVal.vset (insPage fn ps)) t)
    | some (PyVal.vdict _) => none
    | none => some (insKey untaggedKey (PyVal.vset [fn]) t)
  | seg :: rest, t =>
    match lookupA seg t with
    | some (PyVal.vdict d) => (addPath fn rest d).map (fun d' => updateA seg (PyVal.vdict d') t)
    | some (PyVal.vset _) => none
    | none => (addPath fn rest newNode).map (fun d' => insKey seg (PyVal.vdict d') t)

/-- `_add_page_to_tag_dict(page, one_tag, tag_tree)`. -/
def addPage (fn tag : Str) (t : Dict) : Option Dict := addPath fn (splitOnDash tag) t

/-- `_scan_line_for_tags`. -/
def scan_line_for_tags (line : Str) : List Str :=
  if startsWithL "Tags: ".data line then (pySplit line).drop 1 else []

/-- The body of the `fileinput` scan loop, for the lines of one file:
each line first adds the file to the root untagged set; when the line
yields a non-empty tag list the file is discarded from the untagged set,
added under each tag, and `fileinput.nextfile()` skips the rest of the
file. -/
def processLines (fn : Str) (t : Dict) : List Str → Option Dict
  | [] => some t
  | l :: rest =>
    match rootUntaggedAdd fn t with
    | none => none
    | some t1 =>
      let tags := scan_line_for_tags l
      if tags.isEmpty then processLines fn t1 rest
      else
        match rootUntaggedDiscard fn t1 with
        | none => none
        | some t2 => tags.foldlM (fun a tg => addPage fn tg a) t2

/-- One entry of the working directory. -/
structure DirEntry : Type where
  name : Str
  isFile : Bool
  content : Str
deriving Repr

/-- `files_to_scan`: names of regular files not matching the exclusion
pattern, in directory order. -/
def filesToScan (dir : List DirEntry) : List DirEntry :=
  dir.filter (fun f => f.isFile && !file_exclusion_match f.name)

/-- The scan loop of `generate_page_index` over a list of files, starting
from `{"untagged": set()}`.  (When the candidate list is empty, `fileinput`
would fall back to reading stdin; stdin is outside this model, so an empty
list scans nothing.) -/
def buildTree (files : List (Str × Str)) : Option Dict :=
  files.foldl (fun acc f => acc.bind (fun t => processLines f.1 t (pyLines f.2)))
    (some newNode)

/-- The tag tree built from a directory. -/
def buildTreeOfDir (dir : List DirEntry) : Option Dict :=
  buildTree ((filesToScan dir).map (fun f => (f.name, f.content)))

/-!
## Rendering
-/

/-- Python `sorted` on strings (duplicates kept). -/
def insSorted (x : Str) : List Str → List Str
  | [] => [x]
  | y :: ys => if strLt y x then y :: insSorted x ys else x :: y :: ys

/-- Python `sorted(list)`. -/
def pySorted (l : List Str) : List Str := l.foldr insSorted []

/-- Python `list.remove`: delete the first occurrence, error if absent. -/
def removeFirst (x : Str) : List Str → Option (List Str)
  | [] => none
  | y :: ys => if y = x then some ys else (removeFirst x ys).map (fun r => y :: r)

/-- The link line rendered for one file name:
`f"[{munged_filename}](wiki/{stripped_filename})\n\n"` where
`stripped_filename = splitext(one_filename)[0]` and `munged_filename` is
the stripped name with dashes translated to spaces. -/
def linkLine (fn : Str) : Str :=
  let stripped := splitextRoot fn
  let munged := stripped.map dashToSpace
  "[".data ++ munged ++ "](wiki/".data ++ stripped ++ ")\n\n".data

/-- A tag heading: `f"{'#' * level} {one_tag.translate(underscore_to_space)}\n\n"`. -/
def headingLine (level : Nat) (tag : Str) : Str :=
  List.replicate level '#' ++ " ".data ++ tag.map underscoreToSpace ++ "\n\n".data

theorem lookupA_sizeOf {k : Str} {es : Dict} {v : PyVal} (h : lookupA k es = some v) :
    sizeOf v < sizeOf es := by
  induction es with
  | nil => simp [lookupA] at h
  | cons e rest ih =>
    obtain ⟨k', v'⟩ := e
    by_cases hk : k = k'
    · simp [lookupA, hk] at h
      subst h
      simp
      omega
    · simp [lookupA, hk] at h
      have := ih h
      simp
      omega

mutual

/-- `_render_tag_tree(tag_tree, level)`.  A value that is not a dict
cannot be rendered (`tag_tree["untagged"]` on a `set` raises); a missing
`"untagged"` key raises `KeyError`; `sub_tags.remove("untagged")` raises
`ValueError` when absent; an `"untagged"` entry that is itself a dict is
unreachable for trees this program builds and is modelled as a failure. -/
def renderVal (v : PyVal) (level : Nat) : Option Str :=
  match v with
  | PyVal.vset _ => none
  | PyVal.vdict es =>
    match lookupA untaggedKey es with
    | none => none
    | some (PyVal.vdict _) => none
    | some (PyVal.vset pages) =>
      let fileLines := catStrs ((pySorted pages).map linkLine)
      match removeFirst untaggedKey (pySorted (es.map Prod.fst)) with
      | none => none
      | some subTags =>
        (renderKeys es level subTags).map (fun rest => fileLines ++ rest)
termination_by (sizeOf v, 0)
decreasing_by
  apply Prod.Lex.left
  simp

/-- The `for one_tag in sub_tags` loop of `_render_tag_tree`: emit each
tag's heading followed by the recursive render of its subtree. -/
def renderKeys (es : Dict) (level : Nat) (ks : List Str) : Option Str :=
  match ks with
  | [] => some []
  | k :: ks' =>
    match h : lookupA k es with
    | none => none
    | some child =>
      match renderVal child (level + 1), renderKeys es level ks' with
      | some sub, some rest => some (headingLine level k ++ sub ++ rest)
      | _, _ => none
termination_by (sizeOf es, ks.length + 1)
decreasing_by
  · apply Prod.Lex.left
    exact lookupA_sizeOf h
  · apply Prod.Lex.right
    simp [List.length_cons]

end

/-- `generate_page_index()` over a modelled directory: the header, the
rendered tag tree, and the end marker. -/
def generate_page_index (dir : List DirEntry) : Option Str :=
  match buildTreeOfDir dir with
  | none => none
  | some t =>
    (renderVal (PyVal.vdict t) 2).map
      (fun body => start_marker ++ "\n# Page Index\n\n".data ++ body ++ end_marker)

/-!
## The index inserter

`insert_page_index` renames `Home.md` to `Home.md.old`, then writes a new
`Home.md` while reading the backup.  The writable file is modelled as a
buffer plus a write position, since the function uses `seek(0)` and
overwrites previously written text in the no-marker case.
-/

/-- A file open for writing: its contents so far and the write position. -/
structure WFile : Type where
  content : Str
  pos : Nat
deriving Repr

/-- `write(s)`: overwrite from the current position, extending the file as
needed, and advance the position. -/
def fwrite (f : WFile) (s : Str) : WFile :=
  ⟨f.content.take f.pos ++ s ++ f.content.drop (f.pos + s.length), f.pos + s.length⟩

/-- `seek(0)`. -/
def fseek0 (f : WFile) : WFile := ⟨f.content, 0⟩

/-- The first loop of `insert_page_index`: copy lines to the new file
until one equals the start marker; report the remaining lines after the
marker, or `none` when EOF was reached first. -/
def copyUntilMarker (f : WFile) : List Str → WFile × Option (List Str)
  | [] => (f, none)
  | l :: rest =>
    if l = start_marker then (f, some rest) else copyUntilMarker (fwrite f l) rest

/-- The second loop: skip lines until one equals the end marker, returning
the lines after it (all skipped lines are discarded; EOF gives `[]`). -/
def skipUntilEnd : List Str → List Str
  | [] => []
  | l :: rest => if l = end_marker then rest else skipUntilEnd rest

/-- The file-rewriting core of `insert_page_index` as a pure function from
the generated index text and the old `Home.md` content to the new
`Home.md` content. -/
def splice (idx : Str) (old : Str) : Str :=
  match copyUntilMarker ⟨[], 0⟩ (pyLines old) with
  | (f, none) =>
    -- EOF without finding the start marker: seek(0), write the index,
    -- rewind the old file and copy all of its lines after it.
    let f1 := fwrite (fseek0 f) idx
    ((pyLines old).foldl fwrite f1).content
  | (f, some rest) =>
    -- Start marker found: skip the old index, write the new one, then
    -- copy the remaining lines.
    let f1 := fwrite f idx
    ((skipUntilEnd rest).foldl fwrite f1).content

/-- `insert_page_index()`: the content of the new `Home.md`, given the
modelled working directory and the old `Home.md` content. -/
def insert_page_index (dir : List DirEntry) (old : Str) : Option Str :=
  (generate_page_index dir).map (fun idx => splice idx old)

/-!
## Claim-side definitions
-/

/-- Does `pat` occur as a contiguous substring anywhere in `s`? -/
def containsSub (pat s : Str) : Bool :=
  startsWithL pat s ||
    match s with
    | [] => false
    | _ :: rest => containsSub pat rest

/-- The exclusion rule as claim C3 words it: name starts with `.`, or is
exactly `_Sidebar.md`, or is exactly `_Footer.md`, or contains the
substring `Home.md` anywhere. -/
def claim_exclusion_spec (s : Str) : Bool :=
  startsWithL ".".data s || s == "_Sidebar.md".data || s == "_Footer.md".data ||
    containsSub "Home.md".data s

/-!
## Characterizing the exclusion pattern
-/

theorem matchLit_eq_some {lit s r : Str} : matchLit lit s = some r ↔ s = lit ++ r := by
  induction lit generalizing s with
  | nil => cases s <;> simp [matchLit]
  | cons c cs ih =>
    cases s with
    | nil => simp [matchLit]
    | cons d ds =>
      by_cases h : c = d
      · subst h
        simp [matchLit, ih]
      · simp [matchLit, h]
        intro he
        exact fun _ => h he.symm

theorem matchDotStarDollar_iff {s : Str} :
    matchDotStarDollar s = true ↔
      ∃ t u, s = t ++ u ∧ (∀ c ∈ t, c ≠ '\n') ∧ (u = [] ∨ u = ['\n']) := by
  induction s with
  | nil =>
    simp [matchDotStarDollar]
    exact ⟨[], [], by simp⟩
  | cons c rest ih =>
    simp only [matchDotStarDollar, Bool.or_eq_true, Bool.and_eq_true, decide_eq_true_eq,
      bne_iff_ne, ne_eq]
    constructor
    · rintro (⟨hc, hr⟩ | ⟨hc, hr⟩)
      · exact ⟨[], ['\n'], by simp [hc, hr]⟩
      · obtain ⟨t, u, he, hn, hu⟩ := ih.mp hr
        exact ⟨c :: t, u, by simp [he], by simpa [hc] using hn, hu⟩
    · rintro ⟨t, u, he, hn, hu⟩
      cases t with
      | nil =>
        rcases hu with hu | hu
        · subst hu; simp at he
        · subst hu
          simp at he
          exact Or.inl ⟨he.1, he.2⟩
      | cons d t' =>
        simp at he
        obtain ⟨h1, h2⟩ := he
        subst h1
        refine Or.inr ⟨hn c (by simp), ih.mpr ⟨t', u, h2, fun x hx => hn x (by simp [hx]), hu⟩⟩

theorem optTest_iff {o : Option Str} {f : Str → Bool} :
    optTest o f = true ↔ ∃ r, o = some r ∧ f r = true := by
  cases o <;> simp [optTest]

/-- What the exclusion regex actually accepts, stated declaratively: the
name starts with `.` and the rest is newline-free up to an optional final
newline; or the name is `_Sidebar.md` up to an optional final newline; or
the name is `_Footer`, any one non-newline character, `md`, up to an
optional final newline; or the name starts with `Home`, any one
non-newline character, `md`. -/
def ExcludedByCode (s : Str) : Prop :=
  (∃ t u, s = '.' :: (t ++ u) ∧ (∀ c ∈ t, c ≠ '\n') ∧ (u = [] ∨ u = ['\n'])) ∨
  (s = "_Sidebar.md".data ∨ s = "_Sidebar.md".data ++ ['\n']) ∨
  (∃ c u, c ≠ '\n' ∧ (u = [] ∨ u = ['\n']) ∧
    s = "_Footer".data ++ c :: ("md".data ++ u)) ∨
  (∃ c u, c ≠ '\n' ∧ s = "Home".data ++ c :: ("md".data ++ u))


theorem matchDot_eq_some {s r : Str} :
    matchDot s = some r ↔ ∃ c, c ≠ '\n' ∧ s = c :: r := by
  cases s with
  | nil => simp [matchDot]
  | cons a as =>
    by_cases ha : a = '\n'
    · subst ha
      simp [matchDot]
      exact fun x hx he => absurd he.symm hx
    · simp only [matchDot, if_neg ha, Option.some.injEq]
      constructor
      · rintro rfl
        exact ⟨a, ha, rfl⟩
      · rintro ⟨c, -, he⟩
        injection he with h1 h2

theorem excl_alt1_iff {s : Str} :
    optTest (matchLit ".".data s) (fun r => matchDotStarDollar r) = true ↔
      ∃ t u, s = '.' :: (t ++ u) ∧ (∀ c ∈ t, c ≠ '\n') ∧ (u = [] ∨ u = ['\n']) := by
  rw [optTest_iff]
  constructor
  · rintro ⟨r, hr, hm⟩
    rw [matchLit_eq_some] at hr
    obtain ⟨t, u, he, hn, hu⟩ := matchDotStarDollar_iff.mp hm
    exact ⟨t, u, by simp [hr, he], hn, hu⟩
  · rintro ⟨t, u, he, hn, hu⟩
    exact ⟨t ++ u, by rw [matchLit_eq_some]; simp [he],
      matchDotStarDollar_iff.mpr ⟨t, u, rfl, hn, hu⟩⟩

theorem excl_alt2_iff {s : Str} :
    optTest (matchLit "_Sidebar.md".data s) (fun r => matchDollar r) = true ↔
      s = "_Sidebar.md".data ∨ s = "_Sidebar.md".data ++ ['\n'] := by
  rw [optTest_iff]
  constructor
  · rintro ⟨r, hr, hm⟩
    rw [matchLit_eq_some] at hr
    simp only [matchDollar, Bool.or_eq_true, decide_eq_true_eq] at hm
    rcases hm with hm | hm
    · exact Or.inl (by simp [hr, hm])
    · exact Or.inr (by simp [hr, hm])
  · rintro (hd | hd)
    · exact ⟨[], by rw [matchLit_eq_some]; simp [hd], by simp [matchDollar]⟩
    · exact ⟨['\n'], by rw [matchLit_eq_some]; simp [hd], by simp [matchDollar]⟩

theorem excl_alt3_iff {s : Str} :
    optTest (matchLit "_Footer".data s) (fun r =>
      optTest (matchDot r) (fun r2 =>
        optTest (matchLit "md".data r2) (fun r3 => matchDollar r3))) = true ↔
      ∃ c u, c ≠ '\n' ∧ (u = [] ∨ u = ['\n']) ∧
        s = "_Footer".data ++ c :: ("md".data ++ u) := by
  rw [optTest_iff]
  constructor
  · rintro ⟨r, hr, hm⟩
    rw [matchLit_eq_some] at hr
    rw [optTest_iff] at hm
    obtain ⟨r2, hd, hm⟩ := hm
    obtain ⟨c, hc, hcr⟩ := matchDot_eq_some.mp hd
    rw [optTest_iff] at hm
    obtain ⟨r3, h3, hm⟩ := hm
    rw [matchLit_eq_some] at h3
    simp only [matchDollar, Bool.or_eq_true, decide_eq_true_eq] at hm
    exact ⟨c, r3, hc, hm, by rw [hr, hcr, h3]⟩
  · rintro ⟨c, u, hc, hu, he⟩
    refine ⟨c :: ("md".data ++ u), by rw [matchLit_eq_some]; exact he, ?_⟩
    rw [optTest_iff]
    refine ⟨"md".data ++ u, matchDot_eq_some.mpr ⟨c, hc, rfl⟩, ?_⟩
    rw [optTest_iff]
    refine ⟨u, by rw [matchLit_eq_some], ?_⟩
    simp only [matchDollar, Bool.or_eq_true, decide_eq_true_eq]
    exact hu

theorem excl_alt4_iff {s : Str} :
    optTest (matchLit "Home".data s) (fun r =>
      optTest (matchDot r) (fun r2 => (matchLit "md".data r2).isSome)) = true ↔
      ∃ c u, c ≠ '\n' ∧ s = "Home".data ++ c :: ("md".data ++ u) := by
  rw [optTest_iff]
  constructor
  · rintro ⟨r, hr, hm⟩
    rw [matchLit_eq_some] at hr
    rw [optTest_iff] at hm
    obtain ⟨r2, hd, hm⟩ := hm
    obtain ⟨c, hc, hcr⟩ := matchDot_eq_some.mp hd
    rw [Option.isSome_iff_exists] at hm
    obtain ⟨u, hu⟩ := hm
    rw [matchLit_eq_some] at hu
    exact ⟨c, u, hc, by rw [hr, hcr, hu]⟩
  · rintro ⟨c, u, hc, he⟩
    refine ⟨c :: ("md".data ++ u), by rw [matchLit_eq_some]; exact he, ?_⟩
    rw [optTest_iff]
    refine ⟨"md".data ++ u, matchDot_eq_some.mpr ⟨c, hc, rfl⟩, ?_⟩
    rw [Option.isSome_iff_exists]
    exact ⟨u, by rw [matchLit_eq_some]⟩


theorem file_exclusion_match_iff {s : Str} :
    file_exclusion_match s = true ↔ ExcludedByCode s := by
  unfold file_exclusion_match ExcludedByCode
  rw [Bool.or_eq_true, Bool.or_eq_true, Bool.or_eq_true,
    excl_alt1_iff, excl_alt2_iff, excl_alt3_iff, excl_alt4_iff, or_assoc, or_assoc]

/-- C3, counterexample: `XHome.md` contains the substring `Home.md`, so the
claim says it is excluded, but `re.match` anchors the pattern at the start
of the name and the code does not exclude it (it is a scan candidate). -/
theorem C3_counterexample :
    file_exclusion_match "XHome.md".data = false ∧
      claim_exclusion_spec "XHome.md".data = true := by
  decide

/-- C3 (amended): a regular file of the working directory is a scan
candidate iff its name is not matched by the exclusion pattern, and the
pattern accepts exactly: names starting with `.` (newline-free up to an
optional final newline), the exact name `_Sidebar.md` (optional final
newline), names of the exact shape `_Footer‹any one non-newline
character›md` (optional final newline), and names starting with
`Home‹any one non-newline character›md`. -/
theorem C3_exclusion_rule (dir : List DirEntry) (f : DirEntry) (hf : f ∈ dir)
    (hreg : f.isFile = true) :
    f ∈ filesToScan dir ↔ ¬ ExcludedByCode f.name := by
  unfold filesToScan
  rw [List.mem_filter]
  constructor
  · rintro ⟨-, hp⟩
    rw [hreg, Bool.true_and, Bool.not_eq_true'] at hp
    intro hex
    rw [← file_exclusion_match_iff] at hex
    rw [hp] at hex
    cases hex
  · intro hm
    refine ⟨hf, ?_⟩
    rw [hreg, Bool.true_and, Bool.not_eq_true']
    cases hb : file_exclusion_match f.name with
    | false => rfl
    | true => exact absurd (file_exclusion_match_iff.mp hb) hm

/-- Witness for C3 at a concrete directory: `A.md` is a scan candidate. -/
theorem C3_exclusion_rule_witness :
    (⟨"A.md".data, true, []⟩ : DirEntry) ∈
        filesToScan [⟨"A.md".data, true, []⟩] ↔
      ¬ ExcludedByCode ("A.md".data) :=
  C3_exclusion_rule [⟨"A.md".data, true, []⟩] ⟨"A.md".data, true, []⟩ (by simp) rfl

/-!
## Order facts about string comparison
-/

theorem strLt_irrefl (s : Str) : strLt s s = false := by
  induction s with
  | nil => rfl
  | cons a as ih => simp [strLt, ih]

theorem strLt_asymm : ∀ (a b : Str), strLt a b = true → strLt b a = false := by
  intro a
  induction a with
  | nil =>
    intro b h
    cases b with
    | nil => simp [strLt] at h
    | cons y ys => simp [strLt]
  | cons x xs ih =>
    intro b h
    cases b with
    | nil => simp [strLt] at h
    | cons y ys =>
      simp only [strLt, Bool.or_eq_true, Bool.and_eq_true, decide_eq_true_eq] at h
      simp only [strLt, Bool.or_eq_false_iff, Bool.and_eq_false_iff]
      rcases h with h | ⟨rfl, h⟩
      · exact ⟨by simp [asymm h], Or.inl (by simp; rintro rfl; exact lt_irrefl _ h)⟩
      · exact ⟨by simp, Or.inr (ih ys h)⟩

theorem strLt_trans : ∀ (a b c : Str), strLt a b = true → strLt b c = true →
    strLt a c = true := by
  intro a
  induction a with
  | nil =>
    intro b c h1 h2
    cases b with
    | nil => simp [strLt] at h1
    | cons y ys =>
      cases c with
      | nil => simp [strLt] at h2
      | cons z zs => simp [strLt]
  | cons x xs ih =>
    intro b c h1 h2
    cases b with
    | nil => simp [strLt] at h1
    | cons y ys =>
      cases c with
      | nil => simp [strLt] at h2
      | cons z zs =>
        simp only [strLt, Bool.or_eq_true, Bool.and_eq_true, decide_eq_true_eq] at h1 h2 ⊢
        rcases h1 with h1 | ⟨rfl, h1⟩
        · rcases h2 with h2 | ⟨rfl, h2⟩
          · exact Or.inl (lt_trans h1 h2)
          · exact Or.inl h1
        · rcases h2 with h2 | ⟨rfl, h2⟩
          · exact Or.inl h2
          · exact Or.inr ⟨rfl, ih ys zs h1 h2⟩

theorem strLt_total : ∀ (a b : Str), strLt a b = false → strLt b a = false → a = b := by
  intro a
  induction a with
  | nil =>
    intro b h1 _
    cases b with
    | nil => rfl
    | cons y ys => simp [strLt] at h1
  | cons x xs ih =>
    intro b h1 h2
    cases b with
    | nil => simp [strLt] at h2
    | cons y ys =>
      simp only [strLt, Bool.or_eq_false_iff, Bool.and_eq_false_iff] at h1 h2
      obtain ⟨hxy, h1'⟩ := h1
      obtain ⟨hyx, h2'⟩ := h2
      simp only [decide_eq_false_iff_not] at hxy hyx
      have hxy2 : x = y := le_antisymm (not_lt.mp hyx) (not_lt.mp hxy)
      subst hxy2
      rcases h1' with h1' | h1'
      · simp at h1'
      · rcases h2' with h2' | h2'
        · simp at h2'
        · exact congrArg (x :: ·) (ih ys h1' h2')

/-!
## Sorted duplicate-free representations
-/

/-- Strictly sorted list of strings (the canonical form of a Python set). -/
def SortedStr (l : List Str) : Prop := l.Pairwise (fun a b => strLt a b = true)

/-- Dict entries with strictly sorted keys. -/
def SortedKeys (es : Dict) : Prop :=
  (es.map Prod.fst).Pairwise (fun a b => strLt a b = true)

theorem strLt_ne {a b : Str} (h : strLt a b = true) : a ≠ b := by
  rintro rfl
  rw [strLt_irrefl] at h
  cases h

theorem strLt_of_not_of_ne {a b : Str} (h1 : ¬ strLt a b = true) (h2 : a ≠ b) :
    strLt b a = true := by
  cases hb : strLt b a with
  | true => rfl
  | false =>
    exact absurd (strLt_total a b (Bool.not_eq_true _ ▸ h1) hb) h2

theorem mem_insPage {x a : Str} {s : List Str} :
    a ∈ insPage x s ↔ a = x ∨ a ∈ s := by
  induction s with
  | nil => simp [insPage]
  | cons y ys ih =>
    by_cases h1 : strLt x y = true
    · simp [insPage, h1]
    · by_cases h2 : x = y
      · subst h2
        simp [insPage, h1]
      · simp only [insPage, if_neg h1, if_neg h2, List.mem_cons, ih]
        tauto

theorem insPage_sorted {x : Str} {s : List Str} (hs : SortedStr s) :
    SortedStr (insPage x s) := by
  induction s with
  | nil => simp [insPage, SortedStr]
  | cons y ys ih =>
    rw [SortedStr, List.pairwise_cons] at hs
    obtain ⟨hy, hys⟩ := hs
    by_cases h1 : strLt x y = true
    · rw [insPage, if_pos h1, SortedStr, List.pairwise_cons]
      refine ⟨?_, List.pairwise_cons.mpr ⟨hy, hys⟩⟩
      intro a ha
      rcases List.mem_cons.mp ha with rfl | ha
      · exact h1
      · exact strLt_trans _ _ _ h1 (hy a ha)
    · by_cases h2 : x = y
      · rw [insPage, if_neg h1, if_pos h2]
        exact List.pairwise_cons.mpr ⟨hy, hys⟩
      · rw [insPage, if_neg h1, if_neg h2, SortedStr, List.pairwise_cons]
        constructor
        · intro a ha
          rcases mem_insPage.mp ha with rfl | ha
          · exact strLt_of_not_of_ne h1 h2
          · exact hy a ha
        · exact ih hys

theorem sortedStr_head_not_mem {x : Str} {xs : List Str}
    (hs : SortedStr (x :: xs)) : x ∉ xs := by
  rw [SortedStr, List.pairwise_cons] at hs
  intro hm
  exact strLt_ne (hs.1 x hm) rfl

theorem sortedStr_ext : ∀ {s1 s2 : List Str}, SortedStr s1 → SortedStr s2 →
    (∀ a, a ∈ s1 ↔ a ∈ s2) → s1 = s2 := by
  intro s1
  induction s1 with
  | nil =>
    intro s2 _ _ hm
    cases s2 with
    | nil => rfl
    | cons y ys => exact absurd ((hm y).mpr (by simp)) (by simp)
  | cons x xs ih =>
    intro s2 h1 h2 hm
    cases s2 with
    | nil => exact absurd ((hm x).mp (by simp)) (by simp)
    | cons y ys =>
      have hxy : x = y := by
        by_contra hne
        have hx2 : x ∈ y :: ys := (hm x).mp (by simp)
        have hy1 : y ∈ x :: xs := (hm y).mpr (by simp)
        have hx2' : x ∈ ys := by
          rcases List.mem_cons.mp hx2 with h | h
          · exact absurd h hne
          · exact h
        have hy1' : y ∈ xs := by
          rcases List.mem_cons.mp hy1 with h | h
          · exact absurd h.symm hne
          · exact h
        rw [SortedStr, List.pairwise_cons] at h1 h2
        exact absurd rfl (strLt_ne (strLt_trans _ _ _ (h1.1 y hy1') (h2.1 x hx2')))
      subst hxy
      have : xs = ys := by
        refine ih (List.Pairwise.sublist (List.sublist_cons_self x xs) h1)
          (List.Pairwise.sublist (List.sublist_cons_self x ys) h2) ?_
        intro a
        constructor
        · intro ha
          rcases List.mem_cons.mp ((hm a).mp (List.mem_cons_of_mem x ha)) with rfl | h
          · exact absurd ha (sortedStr_head_not_mem h1)
          · exact h
        · intro ha
          rcases List.mem_cons.mp ((hm a).mpr (List.mem_cons_of_mem x ha)) with rfl | h
          · exact absurd ha (sortedStr_head_not_mem h2)
          · exact h
      rw [this]

theorem lookupA_updateA {k k' : Str} {v : PyVal} {es : Dict} :
    lookupA k' (updateA k v es) =
      if k' = k then (lookupA k es).map (fun _ => v) else lookupA k' es := by
  induction es with
  | nil =>
    by_cases h : k' = k <;> simp [updateA, lookupA, h]
  | cons e rest ih =>
    obtain ⟨k0, v0⟩ := e
    by_cases hk : k = k0
    · subst hk
      by_cases hk' : k' = k
      · subst hk'
        simp [updateA, lookupA]
      · simp [updateA, lookupA, hk']
    · by_cases hk' : k' = k0
      · subst hk'
        have hne : k' ≠ k := fun h => hk h.symm
        simp [updateA, lookupA, hk, hne, Ne.symm hk]
      · simp [updateA, lookupA, hk, hk', ih]

theorem updateA_map_fst {k : Str} {v : PyVal} {es : Dict} :
    (updateA k v es).map Prod.fst = es.map Prod.fst := by
  induction es with
  | nil => rfl
  | cons e rest ih =>
    obtain ⟨k0, v0⟩ := e
    by_cases hk : k = k0
    · subst hk
      simp [updateA]
    · simp [updateA, hk, ih]

theorem lookupA_none_iff {k : Str} {es : Dict} :
    lookupA k es = none ↔ k ∉ es.map Prod.fst := by
  induction es with
  | nil => simp [lookupA]
  | cons e rest ih =>
    obtain ⟨k0, v0⟩ := e
    by_cases hk : k = k0
    · subst hk
      simp [lookupA]
    · simp [lookupA, hk, ih]

theorem lookupA_mem {k : Str} {v : PyVal} {es : Dict} (h : lookupA k es = some v) :
    (k, v) ∈ es := by
  induction es with
  | nil => simp [lookupA] at h
  | cons e rest ih =>
    obtain ⟨k0, v0⟩ := e
    by_cases hk : k = k0
    · subst hk
      rw [lookupA, if_pos rfl] at h
      obtain rfl := Option.some.injEq _ _ ▸ h
      exact List.mem_cons_self _ _
    · rw [lookupA, if_neg hk] at h
      exact List.mem_cons_of_mem _ (ih h)

theorem lookupA_insKey {k k' : Str} {v : PyVal} {es : Dict}
    (habs : lookupA k es = none) :
    lookupA k' (insKey k v es) = if k' = k then some v else lookupA k' es := by
  induction es with
  | nil => by_cases h : k' = k <;> simp [insKey, lookupA, h]
  | cons e rest ih =>
    obtain ⟨k0, v0⟩ := e
    have hk0 : k ≠ k0 := by
      rintro rfl
      simp [lookupA] at habs
    rw [lookupA, if_neg hk0] at habs
    by_cases hlt : strLt k k0 = true
    · by_cases hk' : k' = k
      · subst hk'
        simp [insKey, hlt, lookupA]
      · simp [insKey, hlt, lookupA, hk']
    · by_cases hk' : k' = k0
      · subst hk'
        rw [insKey, if_neg hlt]
        rw [if_neg (show ¬ k' = k from fun h => hk0 h.symm)]
        rw [lookupA, if_pos rfl, lookupA, if_pos rfl]
      · simp [insKey, hlt, lookupA, hk', ih habs]

theorem mem_fst_insKey {k k' : Str} {v : PyVal} {es : Dict} :
    k' ∈ (insKey k v es).map Prod.fst ↔ k' = k ∨ k' ∈ es.map Prod.fst := by
  induction es with
  | nil => simp [insKey]
  | cons e rest ih =>
    obtain ⟨k0, v0⟩ := e
    by_cases hlt : strLt k k0 = true
    · simp [insKey, hlt]
    · simp only [insKey, if_neg hlt, List.map_cons, List.mem_cons, ih]
      tauto

theorem insKey_sorted {k : Str} {v : PyVal} {es : Dict} (hs : SortedKeys es)
    (habs : lookupA k es = none) : SortedKeys (insKey k v es) := by
  induction es with
  | nil => simp [insKey, SortedKeys]
  | cons e rest ih =>
    obtain ⟨k0, v0⟩ := e
    have hk0 : k ≠ k0 := by
      rintro rfl
      simp [lookupA] at habs
    rw [lookupA, if_neg hk0] at habs
    rw [SortedKeys, List.map_cons, List.pairwise_cons] at hs
    obtain ⟨h0, hrest⟩ := hs
    by_cases hlt : strLt k k0 = true
    · rw [insKey, if_pos hlt, SortedKeys, List.map_cons, List.pairwise_cons]
      constructor
      · intro a ha
        rcases List.mem_cons.mp ha with rfl | ha
        · exact hlt
        · exact strLt_trans _ _ _ hlt (h0 a ha)
      · rw [List.map_cons, List.pairwise_cons]
        exact ⟨h0, hrest⟩
    · rw [insKey, if_neg hlt, SortedKeys, List.map_cons, List.pairwise_cons]
      constructor
      · intro a ha
        rcases mem_fst_insKey.mp ha with rfl | ha
        · exact strLt_of_not_of_ne hlt hk0
        · exact h0 a ha
      · exact ih hrest habs

theorem sortedKeys_head_not_mem {k0 : Str} {v0 : PyVal} {es : Dict}
    (hs : SortedKeys ((k0, v0) :: es)) : k0 ∉ es.map Prod.fst := by
  rw [SortedKeys, List.map_cons, List.pairwise_cons] at hs
  intro hm
  exact strLt_ne (hs.1 k0 hm) rfl

theorem assocExt : ∀ {es1 es2 : Dict}, SortedKeys es1 → SortedKeys es2 →
    (∀ k, lookupA k es1 = lookupA k es2) → es1 = es2 := by
  intro es1
  induction es1 with
  | nil =>
    intro es2 _ _ hm
    cases es2 with
    | nil => rfl
    | cons e ys =>
      obtain ⟨k, v⟩ := e
      have := hm k
      simp [lookupA] at this
  | cons e xs ih =>
    intro es2 h1 h2 hm
    obtain ⟨k, v⟩ := e
    cases es2 with
    | nil =>
      have := hm k
      simp [lookupA] at this
    | cons e2 ys =>
      obtain ⟨k2, v2⟩ := e2
      have hkk : k = k2 := by
        by_contra hne
        have hx : lookupA k ((k2, v2) :: ys) = some v := by
          rw [← hm k, lookupA, if_pos rfl]
        have hy : lookupA k2 ((k, v) :: xs) = some v2 := by
          rw [hm k2, lookupA, if_pos rfl]
        rw [lookupA, if_neg hne] at hx
        rw [lookupA, if_neg (Ne.symm hne)] at hy
        have hmx : k ∈ ys.map Prod.fst :=
          List.mem_map.mpr ⟨(k, v), lookupA_mem hx, rfl⟩
        have hmy : k2 ∈ xs.map Prod.fst :=
          List.mem_map.mpr ⟨(k2, v2), lookupA_mem hy, rfl⟩
        rw [SortedKeys, List.map_cons, List.pairwise_cons] at h1 h2
        exact absurd rfl (strLt_ne (strLt_trans _ _ _ (h1.1 k2 hmy) (h2.1 k hmx)))
      subst hkk
      have hv : v = v2 := by
        have := hm k
        rw [lookupA, if_pos rfl, lookupA, if_pos rfl] at this
        exact Option.some.injEq _ _ ▸ this
      subst hv
      have htail : xs = ys := by
        refine ih ?_ ?_ ?_
        · exact List.Pairwise.sublist (List.sublist_cons_self _ _)
            (by rw [SortedKeys, List.map_cons] at h1; exact h1)
        · exact List.Pairwise.sublist (List.sublist_cons_self _ _)
            (by rw [SortedKeys, List.map_cons] at h2; exact h2)
        · intro k'
          by_cases hk' : k' = k
          · subst hk'
            rw [lookupA_none_iff.mpr (sortedKeys_head_not_mem h1),
              lookupA_none_iff.mpr (sortedKeys_head_not_mem h2)]
          · have := hm k'
            rwa [lookupA, if_neg hk', lookupA, if_neg hk'] at this
      rw [htail]

/-!
## The tree invariant

Every dict node of a reachable tag tree has strictly sorted, distinct
keys; its `"untagged"` key is present and holds a sorted set; every other
key holds a well-formed dict.
-/

theorem mem_updateA {k k' : Str} {v v' : PyVal} {es : Dict}
    (h : (k', v') ∈ updateA k v es) : (k', v') ∈ es ∨ (k' = k ∧ v' = v) := by
  induction es with
  | nil => simp [updateA] at h
  | cons e rest ih =>
    obtain ⟨k0, v0⟩ := e
    by_cases hk : k = k0
    · subst hk
      rw [updateA, if_pos rfl] at h
      rcases List.mem_cons.mp h with h | h
      · obtain ⟨rfl, rfl⟩ := Prod.mk.injEq .. ▸ h
        exact Or.inr ⟨rfl, rfl⟩
      · exact Or.inl (List.mem_cons_of_mem _ h)
    · rw [updateA, if_neg hk] at h
      rcases List.mem_cons.mp h with h | h
      · exact Or.inl (h ▸ List.mem_cons_self _ _)
      · rcases ih h with h | h
        · exact Or.inl (List.mem_cons_of_mem _ h)
        · exact Or.inr h

theorem mem_insKey {k k' : Str} {v v' : PyVal} {es : Dict}
    (h : (k', v') ∈ insKey k v es) : (k', v') ∈ es ∨ (k' = k ∧ v' = v) := by
  induction es with
  | nil =>
    simp [insKey] at h
    exact Or.inr h
  | cons e rest ih =>
    obtain ⟨k0, v0⟩ := e
    by_cases hlt : strLt k k0 = true
    · rw [insKey, if_pos hlt] at h
      rcases List.mem_cons.mp h with h | h
      · obtain ⟨rfl, rfl⟩ := Prod.mk.injEq .. ▸ h
        exact Or.inr ⟨rfl, rfl⟩
      · exact Or.inl h
    · rw [insKey, if_neg hlt] at h
      rcases List.mem_cons.mp h with h | h
      · exact Or.inl (h ▸ List.mem_cons_self _ _)
      · rcases ih h with h | h
        · exact Or.inl (List.mem_cons_of_mem _ h)
        · exact Or.inr h

/-- The invariant maintained on every dict node of the tag tree. -/
inductive WFS : Dict → Prop where
  | mk (es : Dict) :
      SortedKeys es →
      (∃ ps, lookupA untaggedKey es = some (PyVal.vset ps) ∧ SortedStr ps) →
      (∀ k d, (k, PyVal.vdict d) ∈ es → WFS d) →
      (∀ k v, (k, v) ∈ es → k ≠ untaggedKey → ∃ d, v = PyVal.vdict d) →
      WFS es

theorem WFS.sortedKeys {es : Dict} (h : WFS es) : SortedKeys es := by
  cases h with
  | mk _ h1 _ _ _ => exact h1

theorem WFS.untagged {es : Dict} (h : WFS es) :
    ∃ ps, lookupA untaggedKey es = some (PyVal.vset ps) ∧ SortedStr ps := by
  cases h with
  | mk _ _ h2 _ _ => exact h2

theorem WFS.child {es : Dict} (h : WFS es) {k : Str} {d : Dict}
    (hm : (k, PyVal.vdict d) ∈ es) : WFS d := by
  cases h with
  | mk _ _ _ h3 _ => exact h3 k d hm

theorem WFS.isdict {es : Dict} (h : WFS es) {k : Str} {v : PyVal}
    (hm : (k, v) ∈ es) (hk : k ≠ untaggedKey) : ∃ d, v = PyVal.vdict d := by
  cases h with
  | mk _ _ _ _ h4 => exact h4 k v hm hk

theorem WFS.lookup_vdict {es : Dict} (h : WFS es) {k : Str} {d : Dict}
    (hl : lookupA k es = some (PyVal.vdict d)) : WFS d :=
  h.child (lookupA_mem hl)

theorem WFS.lookup_vset_untagged {es : Dict} (h : WFS es) {k : Str} {ps : List Str}
    (hl : lookupA k es = some (PyVal.vset ps)) : k = untaggedKey := by
  by_contra hk
  obtain ⟨d, hd⟩ := h.isdict (lookupA_mem hl) hk
  cases hd

theorem wfs_newNode : WFS newNode := by
  refine WFS.mk _ ?_ ?_ ?_ ?_
  · simp [newNode, SortedKeys]
  · exact ⟨[], by simp [newNode, lookupA], by simp [SortedStr]⟩
  · intro k d hm
    unfold newNode at hm
    rcases List.mem_cons.mp hm with h | h
    · exact absurd (congrArg Prod.snd h) (by simp)
    · cases h
  · intro k v hm hk
    unfold newNode at hm
    rcases List.mem_cons.mp hm with h | h
    · exact absurd (congrArg Prod.fst h) hk
    · cases h

theorem wfs_update_untagged {es : Dict} {ps' : List Str} (h : WFS es)
    (hs : SortedStr ps') : WFS (updateA untaggedKey (PyVal.vset ps') es) := by
  obtain ⟨ps, hl, -⟩ := h.untagged
  refine WFS.mk _ ?_ ?_ ?_ ?_
  · rw [SortedKeys, updateA_map_fst]
    exact h.sortedKeys
  · refine ⟨ps', ?_, hs⟩
    rw [lookupA_updateA, if_pos rfl, hl]
    rfl
  · intro k d hm
    rcases mem_updateA hm with hm | ⟨rfl, hv⟩
    · exact h.child hm
    · cases hv
  · intro k v hm hk
    rcases mem_updateA hm with hm | ⟨rfl, -⟩
    · exact h.isdict hm hk
    · exact absurd rfl hk

theorem wfs_update_dict {es : Dict} {seg : Str} {d d' : Dict} (h : WFS es)
    (hl : lookupA seg es = some (PyVal.vdict d)) (hd' : WFS d') :
    WFS (updateA seg (PyVal.vdict d') es) := by
  have hseg : seg ≠ untaggedKey := by
    rintro rfl
    obtain ⟨ps, hl2, -⟩ := h.untagged
    rw [hl] at hl2
    cases hl2
  refine WFS.mk _ ?_ ?_ ?_ ?_
  · rw [SortedKeys, updateA_map_fst]
    exact h.sortedKeys
  · obtain ⟨ps, hl2, hs2⟩ := h.untagged
    refine ⟨ps, ?_, hs2⟩
    rw [lookupA_updateA, if_neg (fun he => hseg he.symm)]
    exact hl2
  · intro k d0 hm
    rcases mem_updateA hm with hm | ⟨rfl, hv⟩
    · exact h.child hm
    · injection hv with hv
      exact hv ▸ hd'
  · intro k v hm hk
    rcases mem_updateA hm with hm | ⟨rfl, rfl⟩
    · exact h.isdict hm hk
    · exact ⟨d', rfl⟩

theorem wfs_insKey_dict {es : Dict} {seg : Str} {d' : Dict} (h : WFS es)
    (hl : lookupA seg es = none) (hd' : WFS d') :
    WFS (insKey seg (PyVal.vdict d') es) := by
  have hseg : seg ≠ untaggedKey := by
    rintro rfl
    obtain ⟨ps, hl2, -⟩ := h.untagged
    rw [hl] at hl2
    cases hl2
  refine WFS.mk _ ?_ ?_ ?_ ?_
  · exact insKey_sorted h.sortedKeys hl
  · obtain ⟨ps, hl2, hs2⟩ := h.untagged
    refine ⟨ps, ?_, hs2⟩
    rw [lookupA_insKey hl, if_neg (fun he => hseg he.symm)]
    exact hl2
  · intro k d0 hm
    rcases mem_insKey hm with hm | ⟨rfl, hv⟩
    · exact h.child hm
    · injection hv with hv
      exact hv ▸ hd'
  · intro k v hm hk
    rcases mem_insKey hm with hm | ⟨rfl, rfl⟩
    · exact h.isdict hm hk
    · exact ⟨d', rfl⟩

theorem rootUntaggedAdd_wfs {fn : Str} {es t' : Dict} (h : WFS es)
    (he : rootUntaggedAdd fn es = some t') : WFS t' := by
  obtain ⟨ps, hl, hs⟩ := h.untagged
  rw [rootUntaggedAdd, hl] at he
  injection he with he
  exact he ▸ wfs_update_untagged h (insPage_sorted hs)

theorem rootUntaggedDiscard_wfs {fn : Str} {es t' : Dict} (h : WFS es)
    (he : rootUntaggedDiscard fn es = some t') : WFS t' := by
  obtain ⟨ps, hl, hs⟩ := h.untagged
  rw [rootUntaggedDiscard, hl] at he
  injection he with he
  refine he ▸ wfs_update_untagged h ?_
  exact List.Pairwise.sublist (List.filter_sublist _) hs

theorem addPath_wfs : ∀ (p : List Str) {fn : Str} {es t' : Dict}, WFS es →
    addPath fn p es = some t' → WFS t' := by
  intro p
  induction p with
  | nil =>
    intro fn es t' h he
    obtain ⟨ps, hl, hs⟩ := h.untagged
    rw [addPath, hl] at he
    injection he with he
    exact he ▸ wfs_update_untagged h (insPage_sorted hs)
  | cons seg rest ih =>
    intro fn es t' h he
    rw [addPath] at he
    rcases hl : lookupA seg es with _ | v
    · simp only [hl] at he
      rcases hd : addPath fn rest newNode with _ | d'
      · simp only [hd, Option.map_none'] at he
        cases he
      · simp only [hd, Option.map_some', Option.some.injEq] at he
        exact he ▸ wfs_insKey_dict h hl (ih wfs_newNode hd)
    · rcases v with ps | d
      · simp only [hl] at he
        cases he
      · simp only [hl] at he
        rcases hd : addPath fn rest d with _ | d'
        · simp only [hd, Option.map_none'] at he
          cases he
        · simp only [hd, Option.map_some', Option.some.injEq] at he
          exact he ▸ wfs_update_dict h hl (ih (h.lookup_vdict hl) hd)

theorem addTags_wfs : ∀ (tags : List Str) {fn : Str} {es t' : Dict}, WFS es →
    tags.foldlM (fun a tg => addPage fn tg a) es = some t' → WFS t' := by
  intro tags
  induction tags with
  | nil =>
    intro fn es t' h he
    injection he with he
    exact he ▸ h
  | cons tg rest ih =>
    intro fn es t' h he
    rw [List.foldlM_cons] at he
    rcases ha : addPage fn tg es with _ | u
    · rw [ha] at he
      cases he
    · rw [ha] at he
      exact ih (addPath_wfs _ h ha) he

theorem processLines_wfs : ∀ (lines : List Str) {fn : Str} {es t' : Dict}, WFS es →
    processLines fn es lines = some t' → WFS t' := by
  intro lines
  induction lines with
  | nil =>
    intro fn es t' h he
    injection he with he
    exact he ▸ h
  | cons l rest ih =>
    intro fn es t' h he
    rw [processLines] at he
    rcases ha : rootUntaggedAdd fn es with _ | t1
    · simp only [ha] at he
      cases he
    · simp only [ha] at he
      by_cases htag : (scan_line_for_tags l).isEmpty
      · rw [if_pos htag] at he
        exact ih (rootUntaggedAdd_wfs h ha) he
      · rw [if_neg htag] at he
        rcases hb : rootUntaggedDiscard fn t1 with _ | t2
        · simp only [hb] at he
          cases he
        · simp only [hb] at he
          exact addTags_wfs _ (rootUntaggedDiscard_wfs (rootUntaggedAdd_wfs h ha) hb) he

theorem buildTree_loop_wfs : ∀ (files : List (Str × Str)) (acc : Option Dict)
    (t : Dict), (∀ u, acc = some u → WFS u) →
    files.foldl (fun acc f => acc.bind (fun t => processLines f.1 t (pyLines f.2))) acc =
      some t → WFS t := by
  intro files
  induction files with
  | nil =>
    intro acc t hacc he
    exact hacc t he
  | cons f rest ih =>
    intro acc t hacc he
    rw [List.foldl_cons] at he
    refine ih _ t ?_ he
    intro u hu
    rcases acc with _ | es
    · cases hu
    · rw [Option.some_bind] at hu
      exact processLines_wfs _ (hacc es rfl) hu

theorem buildTree_wfs {files : List (Str × Str)} {t : Dict}
    (he : buildTree files = some t) : WFS t := by
  refine buildTree_loop_wfs files (some newNode) t ?_ he
  intro u hu
  injection hu with hu
  exact hu ▸ wfs_newNode

/-!
## Facts about `pySorted` and `removeFirst`
-/

theorem insSorted_perm (x : Str) (l : List Str) : List.Perm (insSorted x l) (x :: l) := by
  induction l with
  | nil => exact List.Perm.refl _
  | cons y ys ih =>
    rw [insSorted]
    by_cases h : strLt y x = true
    · rw [if_pos h]
      exact (ih.cons y).trans (List.Perm.swap x y ys)
    · rw [if_neg h]

theorem pySorted_perm (l : List Str) : List.Perm (pySorted l) l := by
  induction l with
  | nil => exact List.Perm.refl _
  | cons y ys ih =>
    rw [pySorted, List.foldr_cons]
    exact (insSorted_perm y _).trans (ih.cons y)

theorem mem_pySorted {a : Str} {l : List Str} : a ∈ pySorted l ↔ a ∈ l :=
  (pySorted_perm l).mem_iff

theorem removeFirst_isSome_of_mem {x : Str} {l : List Str} (h : x ∈ l) :
    (removeFirst x l).isSome := by
  induction l with
  | nil => cases h
  | cons y ys ih =>
    rw [removeFirst]
    by_cases hy : y = x
    · rw [if_pos hy]
      rfl
    · rw [if_neg hy]
      have hx : x ∈ ys := by
        rcases List.mem_cons.mp h with rfl | h2
        · exact absurd rfl hy
        · exact h2
      rcases hr : removeFirst x ys with _ | r
      · rw [hr] at ih
        cases ih hx
      · simp [hr]

theorem mem_of_mem_removeFirst {x a : Str} {l r : List Str}
    (he : removeFirst x l = some r) (ha : a ∈ r) : a ∈ l := by
  induction l generalizing r with
  | nil => cases he
  | cons y ys ih =>
    rw [removeFirst] at he
    by_cases hy : y = x
    · rw [if_pos hy] at he
      injection he with he
      exact List.mem_cons_of_mem _ (he ▸ ha)
    · rw [if_neg hy] at he
      rcases hr : removeFirst x ys with _ | r0
      · rw [hr] at he
        cases he
      · rw [hr] at he
        injection he with he
        rw [← he] at ha
        rcases List.mem_cons.mp ha with rfl | ha
        · exact List.mem_cons_self _ _
        · exact List.mem_cons_of_mem _ (ih hr ha)

theorem not_mem_removeFirst_of_nodup {x : Str} {l r : List Str}
    (hn : l.Nodup) (he : removeFirst x l = some r) : x ∉ r := by
  induction l generalizing r with
  | nil => cases he
  | cons y ys ih =>
    rw [removeFirst] at he
    rw [List.nodup_cons] at hn
    by_cases hy : y = x
    · rw [if_pos hy] at he
      injection he with he
      exact he ▸ (hy ▸ hn.1)
    · rw [if_neg hy] at he
      rcases hr : removeFirst x ys with _ | r0
      · rw [hr] at he
        cases he
      · rw [hr] at he
        injection he with he
        rw [← he]
        intro hm
        rcases List.mem_cons.mp hm with rfl | hm
        · exact hy rfl
        · exact ih hn.2 hr hm

theorem sortedKeys_nodup {es : Dict} (h : SortedKeys es) : (es.map Prod.fst).Nodup := by
  rw [SortedKeys] at h
  exact h.imp (fun hab => strLt_ne hab)

theorem renderKeys_isSome : ∀ (ks : List Str) (es : Dict) (level : Nat),
    (∀ k, k ∈ ks → ∃ child, lookupA k es = some child ∧
      (renderVal child (level + 1)).isSome) →
    (renderKeys es level ks).isSome := by
  intro ks
  induction ks with
  | nil =>
    intro es level _
    rw [renderKeys]
    rfl
  | cons k ks' ih =>
    intro es level hk
    obtain ⟨child, hl, hs⟩ := hk k (List.mem_cons_self _ _)
    obtain ⟨sub, hsub⟩ := Option.isSome_iff_exists.mp hs
    have hrest : (renderKeys es level ks').isSome :=
      ih es level (fun k' hk' => hk k' (List.mem_cons_of_mem _ hk'))
    obtain ⟨rest, hrest'⟩ := Option.isSome_iff_exists.mp hrest
    rw [renderKeys]
    split
    next heq =>
      rw [hl] at heq
      cases heq
    next child heq =>
      rw [hl] at heq
      injection heq with heq
      subst heq
      simp only [hsub, hrest']
      rfl

theorem renderVal_isSome : ∀ (n : Nat) (es : Dict), sizeOf es ≤ n → WFS es →
    ∀ level, (renderVal (PyVal.vdict es) level).isSome := by
  intro n
  induction n with
  | zero =>
    intro es hsz
    exfalso
    cases es with
    | nil => simp at hsz
    | cons e rest =>
      simp only [List.cons.sizeOf_spec] at hsz
      omega
  | succ n ih =>
    intro es hsz h level
    obtain ⟨ps, hl, -⟩ := h.untagged
    have hkeys : untaggedKey ∈ es.map Prod.fst := by
      by_contra hk
      rw [← lookupA_none_iff] at hk
      rw [hk] at hl
      cases hl
    have hrem : (removeFirst untaggedKey (pySorted (es.map Prod.fst))).isSome :=
      removeFirst_isSome_of_mem (mem_pySorted.mpr hkeys)
    obtain ⟨subTags, hsub⟩ := Option.isSome_iff_exists.mp hrem
    have hnd : (pySorted (es.map Prod.fst)).Nodup :=
      ((pySorted_perm _).nodup_iff).mpr (sortedKeys_nodup h.sortedKeys)
    have hks : (renderKeys es level subTags).isSome := by
      refine renderKeys_isSome subTags es level ?_
      intro k hkm
      have hkmem : k ∈ es.map Prod.fst :=
        mem_pySorted.mp (mem_of_mem_removeFirst hsub hkm)
      have hkne : k ≠ untaggedKey := by
        rintro rfl
        exact not_mem_removeFirst_of_nodup hnd hsub hkm
      rcases hlk : lookupA k es with _ | v
      · rw [lookupA_none_iff] at hlk
        exact absurd hkmem hlk
      · obtain ⟨d, rfl⟩ := h.isdict (lookupA_mem hlk) hkne
        have hszd : sizeOf d ≤ n := by
          have := lookupA_sizeOf hlk
          have h2 : sizeOf (PyVal.vdict d) = 1 + sizeOf d := by simp
          omega
        exact ⟨PyVal.vdict d, rfl, ih d hszd (h.lookup_vdict hlk) (level + 1)⟩
    obtain ⟨rest, hrest⟩ := Option.isSome_iff_exists.mp hks
    rw [renderVal]
    simp only [hl, hsub, hrest]
    rfl

/-- Claim C9's notion: every node of the tree, the root included, has an
`"untagged"` entry holding a set. -/
inductive EveryNodeHasUntagged : Dict → Prop where
  | mk (es : Dict) :
      (∃ ps, lookupA untaggedKey es = some (PyVal.vset ps)) →
      (∀ k d, (k, PyVal.vdict d) ∈ es → EveryNodeHasUntagged d) →
      EveryNodeHasUntagged es

theorem wfs_everyNodeHasUntagged {es : Dict} (h : WFS es) :
    EveryNodeHasUntagged es := by
  induction h with
  | mk es h1 h2 h3 h4 ih =>
    refine EveryNodeHasUntagged.mk es ?_ ih
    obtain ⟨ps, hl, -⟩ := h2
    exact ⟨ps, hl⟩

/-- C9: any tree reachable by the scan loop (from the root node created
with an `"untagged"` set, through any sequence of per-file updates) has an
`"untagged"` entry at every node, and the renderer — whose
`sub_tags.remove("untagged")` is the only fallible list operation — always
succeeds on it, at every heading level. -/
theorem C9_untagged_invariant (files : List (Str × Str)) (t : Dict)
    (hb : buildTree files = some t) :
    EveryNodeHasUntagged t ∧ ∀ level, (renderVal (PyVal.vdict t) level).isSome := by
  have hwfs := buildTree_wfs hb
  exact ⟨wfs_everyNodeHasUntagged hwfs,
    fun level => renderVal_isSome (sizeOf t) t le_rfl hwfs level⟩

/-- Witness for C9 at a concrete directory scan. -/
theorem C9_untagged_invariant_witness :
    EveryNodeHasUntagged [(untaggedKey, PyVal.vset ["A.md".data])] ∧
      ∀ level,
        (renderVal (PyVal.vdict [(untaggedKey, PyVal.vset ["A.md".data])]) level).isSome :=
  C9_untagged_invariant [("A.md".data, "hello\n".data)]
    [(untaggedKey, PyVal.vset ["A.md".data])] (by rfl)

/-!
## Per-file scan characterization
-/

/-- The tag list the scan loop effectively extracts from one file: the
tokens of the first line that both starts with `Tags: ` and carries at
least one token after the prefix (a `Tags: ` line with zero tokens does
not stop the scan). -/
def fileTags : List Str → List Str
  | [] => []
  | l :: rest =>
    if (scan_line_for_tags l).isEmpty then fileTags rest else scan_line_for_tags l

/-- The tag list as claim C4 words it: the tokens after the prefix on the
first line beginning with `Tags: `, or empty if there is none. -/
def claim_first_tags_line : List Str → List Str
  | [] => []
  | l :: rest =>
    if startsWithL "Tags: ".data l then (pySplit l).drop 1
    else claim_first_tags_line rest

/-- Is `fn` a member of the root's untagged set? -/
def memRootUntagged (fn : Str) (t : Dict) : Bool :=
  match lookupA untaggedKey t with
  | some (PyVal.vset ps) => fn ∈ ps
  | _ => false

/-- Is `fn` a member of the untagged set of the node reached by walking
the given key path? -/
def memUntaggedAt (fn : Str) : List Str → Dict → Bool
  | [], t => memRootUntagged fn t
  | seg :: rest, t =>
    match lookupA seg t with
    | some (PyVal.vdict d) => memUntaggedAt fn rest d
    | _ => false

theorem insPage_idem (x : Str) (s : List Str) : insPage x (insPage x s) = insPage x s := by
  induction s with
  | nil => simp [insPage, strLt_irrefl]
  | cons y ys ih =>
    by_cases h1 : strLt x y = true
    · rw [insPage, if_pos h1, insPage, if_neg (by rw [strLt_irrefl]; simp), if_pos rfl]
    · by_cases h2 : x = y
      · rw [insPage, if_neg h1, if_pos h2, insPage, if_neg (h2 ▸ h1), if_pos h2]
      · rw [insPage, if_neg h1, if_neg h2, insPage, if_neg h1, if_neg h2, ih]

theorem updateA_updateA_same (k : Str) (v1 v2 : PyVal) (es : Dict) :
    updateA k v1 (updateA k v2 es) = updateA k v1 es := by
  induction es with
  | nil => rfl
  | cons e rest ih =>
    obtain ⟨k0, v0⟩ := e
    by_cases hk : k = k0
    · subst hk
      simp [updateA]
    · simp [updateA, hk, ih]

theorem rootAdd_idem (fn : Str) (t : Dict) :
    (rootUntaggedAdd fn t).bind (rootUntaggedAdd fn) = rootUntaggedAdd fn t := by
  rcases hl : lookupA untaggedKey t with _ | v
  · rw [rootUntaggedAdd, hl]
    rfl
  · rcases v with ps | d
    · rw [rootUntaggedAdd, hl, Option.some_bind, rootUntaggedAdd,
        lookupA_updateA, if_pos rfl, hl]
      simp only [Option.map_some']
      rw [updateA_updateA_same, insPage_idem]
    · rw [rootUntaggedAdd, hl]
      rfl

theorem splitOnDash_ne_nil (s : Str) : splitOnDash s ≠ [] := by
  cases s with
  | nil => simp [splitOnDash]
  | cons c rest =>
    rw [splitOnDash]
    by_cases h : c = '-'
    · simp [h]
    · rw [if_neg h]
      rcases splitOnDash rest with _ | ⟨t, ts⟩ <;> simp

theorem processLines_eq (fn : Str) (t : Dict) (lines : List Str) :
    processLines fn t lines =
      if lines.isEmpty then some t
      else if (fileTags lines).isEmpty then rootUntaggedAdd fn t
      else (rootUntaggedAdd fn t).bind (fun t1 =>
        (rootUntaggedDiscard fn t1).bind (fun t2 =>
          (fileTags lines).foldlM (fun a tg => addPage fn tg a) t2)) := by
  induction lines generalizing t with
  | nil => simp [processLines]
  | cons l rest ih =>
    rw [processLines]
    have hft : fileTags (l :: rest) =
        if (scan_line_for_tags l).isEmpty then fileTags rest else scan_line_for_tags l :=
      rfl
    by_cases htag : (scan_line_for_tags l).isEmpty
    · rw [hft, if_pos htag]
      rcases ha : rootUntaggedAdd fn t with _ | t1
      · simp only [ha, List.isEmpty_cons, Bool.false_eq_true, if_false]
        by_cases hfr : (fileTags rest).isEmpty
        · rw [if_pos hfr]
        · rw [if_neg hfr, Option.none_bind]
      · have hidem : rootUntaggedAdd fn t1 = some t1 := by
          have hi := rootAdd_idem fn t
          rwa [ha, Option.some_bind] at hi
        simp only [ha, if_pos htag, List.isEmpty_cons, Bool.false_eq_true, if_false]
        rw [ih t1]
        rcases rest with _ | ⟨l2, rest2⟩
        · simp [fileTags]
        · simp only [List.isEmpty_cons, Bool.false_eq_true, if_false]
          by_cases hfr : (fileTags (l2 :: rest2)).isEmpty
          · simp only [if_pos hfr]
            exact hidem
          · simp only [if_neg hfr]
            rw [hidem, Option.some_bind]
    · rw [hft, if_neg htag]
      rcases ha : rootUntaggedAdd fn t with _ | t1
      · simp only [ha, List.isEmpty_cons, Bool.false_eq_true, if_false, if_neg htag,
          Option.none_bind]
      · simp only [ha, if_neg htag, List.isEmpty_cons, Bool.false_eq_true, if_false,
          Option.some_bind]
        rcases hb : rootUntaggedDiscard fn t1 with _ | t2 <;>
          simp only [hb, Option.none_bind, Option.some_bind]

/-- C4, counterexample: for the file content `"Tags: \nTags: A\n"` the
first line beginning with `Tags: ` carries zero tag tokens, so the claim
says the extracted list is empty and the second line is never read; but
the scan only stops on a line with at least one token, so the code reads
on and files the page under tag `A`. -/
theorem C4_counterexample :
    claim_first_tags_line (pyLines "Tags: \nTags: A\n".data) = [] ∧
      fileTags (pyLines "Tags: \nTags: A\n".data) = ["A".data] ∧
      processLines "F.md".data newNode (pyLines "Tags: \nTags: A\n".data) =
        some [("A".data, PyVal.vdict [(untaggedKey, PyVal.vset ["F.md".data])]),
              (untaggedKey, PyVal.vset [])] :=
  ⟨rfl, rfl, rfl⟩

/-- C4 (amended): scanning one file's lines is equivalent to: take the
tokens of the first line that begins with `Tags: ` AND carries at least
one token after the prefix (lines with the prefix but zero tokens are
skipped and scanning continues); if the file has no line at all it
contributes nothing; if no such tag line exists the file is added to the
root untagged set; otherwise it is added and immediately discarded from
the root untagged set and inserted under each extracted tag, and no line
after the stopping line influences the result. -/
theorem C4_first_qualifying_line (fn : Str) (t : Dict) (lines : List Str) :
    processLines fn t lines =
      if lines.isEmpty then some t
      else if (fileTags lines).isEmpty then rootUntaggedAdd fn t
      else (rootUntaggedAdd fn t).bind (fun t1 =>
        (rootUntaggedDiscard fn t1).bind (fun t2 =>
          (fileTags lines).foldlM (fun a tg => addPage fn tg a) t2)) :=
  processLines_eq fn t lines

theorem addPath_memRoot_eq {fn0 fn : Str} {seg : Str} {rest : List Str} {u u' : Dict}
    (he : addPath fn0 (seg :: rest) u = some u') :
    memRootUntagged fn u' = memRootUntagged fn u := by
  rw [addPath] at he
  rcases hl : lookupA seg u with _ | v
  · simp only [hl] at he
    rcases hd : addPath fn0 rest newNode with _ | d'
    · simp only [hd, Option.map_none'] at he
      cases he
    · simp only [hd, Option.map_some', Option.some.injEq] at he
      subst he
      unfold memRootUntagged
      rw [lookupA_insKey hl]
      by_cases hs : untaggedKey = seg
      · rw [if_pos hs, hs, hl]
      · rw [if_neg hs]
  · rcases v with ps | d
    · simp only [hl] at he
      cases he
    · simp only [hl] at he
      rcases hd : addPath fn0 rest d with _ | d'
      · simp only [hd, Option.map_none'] at he
        cases he
      · simp only [hd, Option.map_some', Option.some.injEq] at he
        subst he
        unfold memRootUntagged
        rw [lookupA_updateA]
        by_cases hs : untaggedKey = seg
        · rw [if_pos hs, hs, hl]
          simp only [Option.map_some']
        · rw [if_neg hs]

theorem addPath_memAt : ∀ (p : List Str) {fn : Str} {u u' : Dict}, WFS u →
    addPath fn p u = some u' → memUntaggedAt fn p u' = true := by
  intro p
  induction p with
  | nil =>
    intro fn u u' h he
    obtain ⟨ps, hl, -⟩ := h.untagged
    rw [addPath, hl] at he
    injection he with he
    subst he
    rw [memUntaggedAt, memRootUntagged, lookupA_updateA, if_pos rfl, hl,
      Option.map_some']
    simp [mem_insPage]
  | cons seg rest ih =>
    intro fn u u' h he
    rw [addPath] at he
    rcases hl : lookupA seg u with _ | v
    · simp only [hl] at he
      rcases hd : addPath fn rest newNode with _ | d'
      · simp only [hd, Option.map_none'] at he
        cases he
      · simp only [hd, Option.map_some', Option.some.injEq] at he
        subst he
        rw [memUntaggedAt]
        rw [lookupA_insKey hl, if_pos rfl]
        exact ih wfs_newNode hd
    · rcases v with ps | d
      · simp only [hl] at he
        cases he
      · simp only [hl] at he
        rcases hd : addPath fn rest d with _ | d'
        · simp only [hd, Option.map_none'] at he
          cases he
        · simp only [hd, Option.map_some', Option.some.injEq] at he
          subst he
          rw [memUntaggedAt]
          rw [lookupA_updateA, if_pos rfl, hl, Option.map_some']
          exact ih (h.lookup_vdict hl) hd

theorem addPath_mono : ∀ (p p2 : List Str) {fn0 fn : Str} {u u' : Dict},
    addPath fn0 p2 u = some u' → memUntaggedAt fn p u = true →
    memUntaggedAt fn p u' = true := by
  intro p
  induction p with
  | nil =>
    intro p2 fn0 fn u u' he hm
    rcases p2 with _ | ⟨seg2, rest2⟩
    · rw [memUntaggedAt, memRootUntagged] at hm
      rcases hl : lookupA untaggedKey u with _ | v
      · rw [hl] at hm
        cases hm
      · rcases v with ps | d
        · rw [hl] at hm
          rw [addPath, hl] at he
          injection he with he
          subst he
          rw [memUntaggedAt, memRootUntagged, lookupA_updateA, if_pos rfl, hl,
            Option.map_some']
          simp only [decide_eq_true_eq] at hm ⊢
          exact mem_insPage.mpr (Or.inr hm)
        · rw [hl] at hm
          cases hm
    · rw [memUntaggedAt, addPath_memRoot_eq he]
      exact hm
  | cons seg restp ih =>
    intro p2 fn0 fn u u' he hm
    rw [memUntaggedAt] at hm
    rcases hl : lookupA seg u with _ | v
    · rw [hl] at hm
      cases hm
    · rcases v with ps | d
      · rw [hl] at hm
        cases hm
      · rw [hl] at hm
        rcases p2 with _ | ⟨seg2, rest2⟩
        · rw [addPath] at he
          rcases hlu : lookupA untaggedKey u with _ | vu
          · simp only [hlu] at he
            injection he with he
            subst he
            rw [memUntaggedAt, lookupA_insKey hlu]
            rw [if_neg (fun hq : seg = untaggedKey => by rw [hq, hlu] at hl; cases hl), hl]
            exact hm
          · rcases vu with psu | du
            · simp only [hlu] at he
              injection he with he
              subst he
              rw [memUntaggedAt, lookupA_updateA]
              rw [if_neg (fun hq : seg = untaggedKey => by rw [hq, hlu] at hl; cases hl), hl]
              exact hm
            · simp only [hlu] at he
              cases he
        · rw [addPath] at he
          rcases hl2 : lookupA seg2 u with _ | v2
          · simp only [hl2] at he
            rcases hd : addPath fn0 rest2 newNode with _ | d2'
            · simp only [hd, Option.map_none'] at he
              cases he
            · simp only [hd, Option.map_some', Option.some.injEq] at he
              subst he
              rw [memUntaggedAt, lookupA_insKey hl2]
              rw [if_neg (fun hq : seg = seg2 => by rw [hq, hl2] at hl; cases hl), hl]
              exact hm
          · rcases v2 with ps2 | d2
            · simp only [hl2] at he
              cases he
            · simp only [hl2] at he
              rcases hd : addPath fn0 rest2 d2 with _ | d2'
              · simp only [hd, Option.map_none'] at he
                cases he
              · simp only [hd, Option.map_some', Option.some.injEq] at he
                subst he
                rw [memUntaggedAt, lookupA_updateA]
                by_cases hq : seg = seg2
                · subst hq
                  rw [hl2] at hl
                  injection hl with hl
                  injection hl with hl
                  subst hl
                  rw [if_pos rfl, hl2, Option.map_some']
                  exact ih rest2 hd hm
                · rw [if_neg hq, hl]
                  exact hm

theorem addTags_mono : ∀ (tags : List Str) {fn0 fn : Str} {p : List Str} {u u' : Dict},
    tags.foldlM (fun a tg => addPage fn0 tg a) u = some u' →
    memUntaggedAt fn p u = true → memUntaggedAt fn p u' = true := by
  intro tags
  induction tags with
  | nil =>
    intro fn0 fn p u u' he hm
    injection he with he
    exact he ▸ hm
  | cons tg rest ih =>
    intro fn0 fn p u u' he hm
    rw [List.foldlM_cons] at he
    rcases ha : addPage fn0 tg u with _ | u1
    · rw [ha] at he
      cases he
    · rw [ha] at he
      exact ih he (addPath_mono p (splitOnDash tg) ha hm)

theorem addTags_memRoot_eq : ∀ (tags : List Str) {fn0 fn : Str} {u u' : Dict},
    tags.foldlM (fun a tg => addPage fn0 tg a) u = some u' →
    memRootUntagged fn u' = memRootUntagged fn u := by
  intro tags
  induction tags with
  | nil =>
    intro fn0 fn u u' he
    injection he with he
    exact he ▸ rfl
  | cons tg rest ih =>
    intro fn0 fn u u' he
    rw [List.foldlM_cons] at he
    rcases ha : addPage fn0 tg u with _ | u1
    · rw [ha] at he
      cases he
    · rw [ha] at he
      rw [ih he]
      rcases hs : splitOnDash tg with _ | ⟨seg, rest'⟩
      · exact absurd hs (splitOnDash_ne_nil tg)
      · rw [addPage, hs] at ha
        exact addPath_memRoot_eq ha

theorem addTags_memAt : ∀ (tags : List Str) {fn : Str} {u u' : Dict}, WFS u →
    tags.foldlM (fun a tg => addPage fn tg a) u = some u' →
    ∀ tg, tg ∈ tags → memUntaggedAt fn (splitOnDash tg) u' = true := by
  intro tags
  induction tags with
  | nil =>
    intro fn u u' _ _ tg htg
    cases htg
  | cons tg0 rest ih =>
    intro fn u u' h he tg htg
    rw [List.foldlM_cons] at he
    rcases ha : addPage fn tg0 u with _ | u1
    · rw [ha] at he
      cases he
    · rw [ha] at he
      rcases List.mem_cons.mp htg with rfl | htg
      · exact addTags_mono rest he (addPath_memAt _ h ha)
      · exact ih (addPath_wfs _ h ha) he tg htg

theorem rootAdd_memRoot {fn : Str} {u u1 : Dict}
    (ha : rootUntaggedAdd fn u = some u1) : memRootUntagged fn u1 = true := by
  rcases hl : lookupA untaggedKey u with _ | v
  · rw [rootUntaggedAdd, hl] at ha
    cases ha
  · rcases v with ps | d
    · rw [rootUntaggedAdd, hl] at ha
      injection ha with ha
      subst ha
      rw [memRootUntagged, lookupA_updateA, if_pos rfl, hl, Option.map_some']
      simp [mem_insPage]
    · rw [rootUntaggedAdd, hl] at ha
      cases ha

theorem discard_memRoot {fn : Str} {u u2 : Dict}
    (hb : rootUntaggedDiscard fn u = some u2) : memRootUntagged fn u2 = false := by
  rcases hl : lookupA untaggedKey u with _ | v
  · rw [rootUntaggedDiscard, hl] at hb
    cases hb
  · rcases v with ps | d
    · rw [rootUntaggedDiscard, hl] at hb
      injection hb with hb
      subst hb
      rw [memRootUntagged, lookupA_updateA, if_pos rfl, hl, Option.map_some']
      simp [dropPage, List.mem_filter]
    · rw [rootUntaggedDiscard, hl] at hb
      cases hb

/-- C5, counterexample: an empty (zero-line) scan candidate `E.md` is
never classified at all — the scan loop yields no line for it, so it is
absent from the root untagged set (and from everywhere else) even though
it has no tags. -/
theorem C5_counterexample :
    buildTreeOfDir [⟨"E.md".data, true, []⟩] = some newNode ∧
      memRootUntagged "E.md".data newNode = false :=
  ⟨rfl, rfl⟩

/-- C5 (amended): a scanned file with at least one line produces exactly
one classification: if its effective tag list (see C4) is empty it ends
in the root untagged set, else it is absent from the root untagged set
and present in the untagged set of the leaf node of every one of its
tags; a file with zero lines produces no classification at all and leaves
the tree unchanged. -/
theorem C5_classification (fn : Str) (lines : List Str) (t t' : Dict) (h : WFS t)
    (hp : processLines fn t lines = some t') :
    (lines = [] → t' = t) ∧
    (lines ≠ [] → fileTags lines = [] → memRootUntagged fn t' = true) ∧
    (lines ≠ [] → fileTags lines ≠ [] → memRootUntagged fn t' = false ∧
      ∀ tg ∈ fileTags lines, memUntaggedAt fn (splitOnDash tg) t' = true) := by
  rw [processLines_eq] at hp
  rcases lines with _ | ⟨l, rest⟩
  · simp only [List.isEmpty_nil, if_true] at hp
    injection hp with hp
    exact ⟨fun _ => hp.symm, fun hne => absurd rfl hne, fun hne => absurd rfl hne⟩
  · simp only [List.isEmpty_cons, Bool.false_eq_true, if_false] at hp
    refine ⟨fun hne => absurd hne (by simp), ?_, ?_⟩
    · intro _ hft
      rw [if_pos (by rw [hft]; rfl)] at hp
      exact rootAdd_memRoot hp
    · intro _ hft
      rw [if_neg (fun hq => hft (List.isEmpty_iff.mp hq))] at hp
      rcases ha : rootUntaggedAdd fn t with _ | t1
      · rw [ha, Option.none_bind] at hp
        cases hp
      · rw [ha, Option.some_bind] at hp
        rcases hb : rootUntaggedDiscard fn t1 with _ | t2
        · rw [hb, Option.none_bind] at hp
          cases hp
        · rw [hb, Option.some_bind] at hp
          have hw2 : WFS t2 :=
            rootUntaggedDiscard_wfs (rootUntaggedAdd_wfs h ha) hb
          constructor
          · rw [addTags_memRoot_eq _ hp]
            exact discard_memRoot hb
          · intro tg htg
            exact addTags_memAt _ hw2 hp tg htg

def c5ExampleDict : Dict :=
  [("X".data, PyVal.vdict [(untaggedKey, PyVal.vset ["P.md".data])]),
   ("Y".data, PyVal.vdict [("Z".data, PyVal.vdict [(untaggedKey, PyVal.vset ["P.md".data])]),
      (untaggedKey, PyVal.vset [])]),
   (untaggedKey, PyVal.vset [])]

/-- Witness for C5 at a concrete tagged file. -/
theorem C5_classification_witness :
    (pyLines "Tags: X Y-Z\n".data = [] → c5ExampleDict = newNode) ∧
    (pyLines "Tags: X Y-Z\n".data ≠ [] → fileTags (pyLines "Tags: X Y-Z\n".data) = [] →
      memRootUntagged "P.md".data c5ExampleDict = true) ∧
    (pyLines "Tags: X Y-Z\n".data ≠ [] → fileTags (pyLines "Tags: X Y-Z\n".data) ≠ [] →
      memRootUntagged "P.md".data c5ExampleDict = false ∧
      ∀ tg ∈ fileTags (pyLines "Tags: X Y-Z\n".data),
        memUntaggedAt "P.md".data (splitOnDash tg) c5ExampleDict = true) :=
  C5_classification "P.md".data (pyLines "Tags: X Y-Z\n".data) newNode c5ExampleDict
    wfs_newNode rfl

theorem memAt_newNode (fn : Str) : ∀ (p : List Str), memUntaggedAt fn p newNode = false := by
  intro p
  cases p with
  | nil =>
    rw [memUntaggedAt, memRootUntagged]
    simp [newNode, lookupA]
  | cons seg p' =>
    rw [memUntaggedAt]
    rcases hl : lookupA seg newNode with _ | v
    · rfl
    · rcases v with ps | d
      · rfl
      · rw [newNode, lookupA] at hl
        by_cases hs : seg = untaggedKey
        · rw [if_pos hs] at hl
          cases hl
        · rw [if_neg hs, lookupA] at hl
          cases hl

theorem addPath_strictPrefix_eq : ∀ (p : List Str) {q : List Str} {fn : Str}
    {u u' : Dict}, addPath fn (p ++ q) u = some u' → q ≠ [] →
    memUntaggedAt fn p u' = memUntaggedAt fn p u := by
  intro p
  induction p with
  | nil =>
    intro q fn u u' he hq
    rcases q with _ | ⟨seg, rest⟩
    · exact absurd rfl hq
    · rw [List.nil_append] at he
      exact addPath_memRoot_eq he
  | cons seg0 p' ih =>
    intro q fn u u' he hq
    rw [List.cons_append, addPath] at he
    rcases hl : lookupA seg0 u with _ | v
    · simp only [hl] at he
      rcases hd : addPath fn (p' ++ q) newNode with _ | d'
      · simp only [hd, Option.map_none'] at he
        cases he
      · simp only [hd, Option.map_some', Option.some.injEq] at he
        subst he
        rw [memUntaggedAt, lookupA_insKey hl, if_pos rfl]
        rw [memUntaggedAt, hl]
        show memUntaggedAt fn p' d' = false
        rw [ih hd hq, memAt_newNode]
    · rcases v with ps | d
      · simp only [hl] at he
        cases he
      · simp only [hl] at he
        rcases hd : addPath fn (p' ++ q) d with _ | d'
        · simp only [hd, Option.map_none'] at he
          cases he
        · simp only [hd, Option.map_some', Option.some.injEq] at he
          subst he
          rw [memUntaggedAt, lookupA_updateA, if_pos rfl, hl, Option.map_some']
          rw [memUntaggedAt, hl]
          show memUntaggedAt fn p' d' = memUntaggedAt fn p' d
          exact ih hd hq

/-- C6: a page whose tag line is `Tags: A A-B` lands in the untagged set
of node `A` and of node `B` inside `A`, and not in the root untagged set;
and in general `_add_page_to_tag_dict` inserts the page only at the leaf
of the hyphen-split tag path — the membership of the page at every strict
prefix of the path (the intermediate nodes and the root) is unchanged. -/
theorem C6_leaf_placement :
    (∀ (fn : Str) (t t' : Dict), WFS t →
      processLines fn t (pyLines "Tags: A A-B\n".data) = some t' →
      memUntaggedAt fn ["A".data] t' = true ∧
      memUntaggedAt fn ["A".data, "B".data] t' = true ∧
      memRootUntagged fn t' = false) ∧
    (∀ (fn tg : Str) (u u' : Dict) (p q : List Str), addPage fn tg u = some u' →
      splitOnDash tg = p ++ q → q ≠ [] →
      memUntaggedAt fn p u' = memUntaggedAt fn p u) := by
  constructor
  · intro fn t t' h hp
    have hl : pyLines "Tags: A A-B\n".data = ["Tags: A A-B\n".data] := rfl
    have htags : scan_line_for_tags "Tags: A A-B\n".data = ["A".data, "A-B".data] := rfl
    rw [hl, processLines] at hp
    rcases ha : rootUntaggedAdd fn t with _ | t1
    · simp only [ha] at hp
      cases hp
    · simp only [ha, htags] at hp
      rw [if_neg (by simp)] at hp
      rcases hb : rootUntaggedDiscard fn t1 with _ | t2
      · simp only [hb] at hp
        cases hp
      · simp only [hb] at hp
        have hw2 : WFS t2 := rootUntaggedDiscard_wfs (rootUntaggedAdd_wfs h ha) hb
        refine ⟨?_, ?_, ?_⟩
        · have := addTags_memAt _ hw2 hp "A".data (by simp)
          exact this
        · have := addTags_memAt _ hw2 hp "A-B".data (by simp)
          exact this
        · rw [addTags_memRoot_eq _ hp]
          exact discard_memRoot hb
  · intro fn tg u u' p q ha hsp hq
    rw [addPage, hsp] at ha
    exact addPath_strictPrefix_eq p ha hq

/-- Witness for C6 at a concretely scanned page. -/
theorem C6_leaf_placement_witness :
    memUntaggedAt "P.md".data ["A".data]
        [("A".data, PyVal.vdict [("B".data, PyVal.vdict [(untaggedKey, PyVal.vset ["P.md".data])]),
            (untaggedKey, PyVal.vset ["P.md".data])]),
         (untaggedKey, PyVal.vset [])] = true ∧
    memUntaggedAt "P.md".data ["A".data, "B".data]
        [("A".data, PyVal.vdict [("B".data, PyVal.vdict [(untaggedKey, PyVal.vset ["P.md".data])]),
            (untaggedKey, PyVal.vset ["P.md".data])]),
         (untaggedKey, PyVal.vset [])] = true ∧
    memRootUntagged "P.md".data
        [("A".data, PyVal.vdict [("B".data, PyVal.vdict [(untaggedKey, PyVal.vset ["P.md".data])]),
            (untaggedKey, PyVal.vset ["P.md".data])]),
         (untaggedKey, PyVal.vset [])] = false :=
  C6_leaf_placement.1 "P.md".data newNode
    [("A".data, PyVal.vdict [("B".data, PyVal.vdict [(untaggedKey, PyVal.vset ["P.md".data])]),
        (untaggedKey, PyVal.vset ["P.md".data])]),
     (untaggedKey, PyVal.vset [])] wfs_newNode rfl

/-!
## Lines and the write buffer
-/

/-- A proper line: some newline-free text terminated by `'\n'`. -/
def IsLine (l : Str) : Prop := ∃ c, l = c ++ ['\n'] ∧ '\n' ∉ c

theorem isLine_start_marker : IsLine start_marker :=
  ⟨"<!--start Page Index-->".data, rfl, by decide⟩

theorem isLine_end_marker : IsLine end_marker :=
  ⟨"<!--end Page Index-->".data, rfl, by decide⟩

theorem pyLines_line_append {l : Str} (hl : IsLine l) (s : Str) :
    pyLines (l ++ s) = l :: pyLines s := by
  obtain ⟨c, rfl, hc⟩ := hl
  induction c with
  | nil => simp [pyLines]
  | cons a c' ih =>
    have ha : a ≠ '\n' := fun h => hc (h ▸ List.mem_cons_self _ _)
    have hc' : '\n' ∉ c' := fun h => hc (List.mem_cons_of_mem _ h)
    rw [show ((a :: c') ++ ['\n']) ++ s = a :: ((c' ++ ['\n']) ++ s) from rfl]
    rw [pyLines, if_neg ha, ih hc']
    rfl

theorem catStrs_pyLines (s : Str) : catStrs (pyLines s) = s := by
  induction s with
  | nil => rfl
  | cons c rest ih =>
    rw [pyLines]
    by_cases hc : c = '\n'
    · rw [if_pos hc, catStrs, List.foldr_cons, hc]
      exact congrArg _ ih
    · rw [if_neg hc]
      rcases hp : pyLines rest with _ | ⟨t, ts⟩
      · rw [hp] at ih
        have : rest = [] := by
          rw [← ih]
          rfl
        subst this
        rfl
      · rw [hp] at ih
        rw [catStrs, List.foldr_cons, List.cons_append]
        rw [catStrs, List.foldr_cons] at ih
        rw [ih]

theorem pyLines_lines_append {ls : List Str} (h : ∀ l ∈ ls, IsLine l) (s : Str) :
    pyLines (catStrs ls ++ s) = ls ++ pyLines s := by
  induction ls with
  | nil => rfl
  | cons l rest ih =>
    rw [catStrs, List.foldr_cons, List.append_assoc,
      pyLines_line_append (h l (List.mem_cons_self _ _)), List.cons_append]
    exact congrArg _ (ih (fun l' hl' => h l' (List.mem_cons_of_mem _ hl')))

theorem fwrite_fwrite {c : Str} {p : Nat} (hp : p ≤ c.length) (a b : Str) :
    fwrite (fwrite ⟨c, p⟩ a) b = fwrite ⟨c, p⟩ (a ++ b) := by
  have hlen : (c.take p).length = p := by
    rw [List.length_take]
    omega
  have hX : (c.take p ++ a).length = p + a.length := by
    rw [List.length_append, hlen]
  rw [fwrite, fwrite, fwrite]
  simp only [WFile.mk.injEq]
  have h1 : List.take (p + a.length) (c.take p ++ (a ++ c.drop (p + a.length))) =
      c.take p ++ a := by
    rw [← List.append_assoc, List.take_left' hX]
  have h2 : List.drop (p + a.length + b.length)
      (c.take p ++ (a ++ c.drop (p + a.length))) = c.drop (p + a.length + b.length) := by
    rw [← List.append_assoc]
    have hda := @List.drop_append _ (c.take p ++ a) (c.drop (p + a.length)) b.length
    rw [hX] at hda
    rw [hda, List.drop_drop]
  constructor
  · rw [show (c.take p ++ a ++ c.drop (p + a.length)) =
        (c.take p ++ (a ++ c.drop (p + a.length))) from by rw [List.append_assoc],
      h1, h2]
    simp [List.append_assoc, List.length_append, Nat.add_assoc]
  · rw [List.length_append]
    omega

theorem fwrite_from_end (c s : Str) :
    fwrite ⟨c, c.length⟩ s = ⟨c ++ s, c.length + s.length⟩ := by
  rw [fwrite]
  simp only [WFile.mk.injEq]
  refine ⟨?_, trivial⟩
  rw [List.take_of_length_le le_rfl, List.drop_eq_nil_of_le (by omega), List.append_nil]

theorem fwrite_pos_le {c : Str} {p : Nat} (hp : p ≤ c.length) (s : Str) :
    (fwrite ⟨c, p⟩ s).pos ≤ (fwrite ⟨c, p⟩ s).content.length := by
  rw [fwrite]
  simp only [List.length_append, List.length_take]
  omega

theorem foldl_fwrite : ∀ (ls : List Str) {c : Str} {p : Nat}, p ≤ c.length →
    List.foldl fwrite ⟨c, p⟩ ls = fwrite ⟨c, p⟩ (catStrs ls) := by
  intro ls
  induction ls with
  | nil =>
    intro c p hp
    rw [List.foldl_nil, catStrs, List.foldr_nil, fwrite]
    simp only [WFile.mk.injEq]
    constructor
    · rw [List.length_nil, List.append_nil, Nat.add_zero, List.take_append_drop]
    · rfl
  | cons l rest ih =>
    intro c p hp
    rw [List.foldl_cons]
    have hnext := fwrite_pos_le hp l
    rcases hw : fwrite ⟨c, p⟩ l with ⟨c1, p1⟩
    rw [hw] at hnext
    rw [ih hnext, hw.symm, fwrite_fwrite hp]
    rfl

theorem copyUntilMarker_no_marker : ∀ (ls : List Str) (f : WFile),
    start_marker ∉ ls → copyUntilMarker f ls = (ls.foldl fwrite f, none) := by
  intro ls
  induction ls with
  | nil => intro f _; rfl
  | cons l rest ih =>
    intro f hm
    rw [copyUntilMarker,
      if_neg (fun hq => hm (by rw [← hq]; exact List.mem_cons_self _ _)), List.foldl_cons]
    exact ih _ (fun hq => hm (List.mem_cons_of_mem _ hq))

theorem copyUntilMarker_found : ∀ (pre : List Str) (rest : List Str) (f : WFile),
    (∀ l ∈ pre, l ≠ start_marker) →
    copyUntilMarker f (pre ++ start_marker :: rest) = (pre.foldl fwrite f, some rest) := by
  intro pre
  induction pre with
  | nil =>
    intro rest f _
    rw [List.nil_append, copyUntilMarker, if_pos rfl]
    rfl
  | cons l pre' ih =>
    intro rest f hm
    rw [List.cons_append, copyUntilMarker,
      if_neg (hm l (List.mem_cons_self _ _)), List.foldl_cons]
    exact ih _ _ (fun l' hl' => hm l' (List.mem_cons_of_mem _ hl'))

theorem skipUntilEnd_no_marker : ∀ (ls : List Str), end_marker ∉ ls →
    skipUntilEnd ls = [] := by
  intro ls
  induction ls with
  | nil => intro _; rfl
  | cons l rest ih =>
    intro hm
    rw [skipUntilEnd, if_neg (fun hq => hm (by rw [← hq]; exact List.mem_cons_self _ _))]
    exact ih (fun hq => hm (List.mem_cons_of_mem _ hq))

theorem skipUntilEnd_found : ∀ (mid : List Str) (suf : List Str),
    (∀ l ∈ mid, l ≠ end_marker) →
    skipUntilEnd (mid ++ end_marker :: suf) = suf := by
  intro mid
  induction mid with
  | nil =>
    intro suf _
    rw [List.nil_append, skipUntilEnd, if_pos rfl]
  | cons l mid' ih =>
    intro suf hm
    rw [List.cons_append, skipUntilEnd, if_neg (hm l (List.mem_cons_self _ _))]
    exact ih _ (fun l' hl' => hm l' (List.mem_cons_of_mem _ hl'))

theorem fwrite_empty (s : Str) : fwrite ⟨[], 0⟩ s = ⟨s, s.length⟩ := by
  have h := fwrite_from_end [] s
  simpa using h

theorem splice_no_marker {idx old : Str} (hm : start_marker ∉ pyLines old) :
    splice idx old = idx ++ old := by
  have hc := copyUntilMarker_no_marker (pyLines old) ⟨[], 0⟩ hm
  have e1 : List.foldl fwrite ⟨[], 0⟩ (pyLines old) = ⟨old, old.length⟩ := by
    rw [foldl_fwrite _ (by simp), fwrite_empty, catStrs_pyLines]
  have e2 : fwrite (fseek0 ⟨old, old.length⟩) idx =
      ⟨idx ++ old.drop idx.length, idx.length⟩ := by
    rw [fseek0, fwrite]
    simp
  have e3 : List.foldl fwrite ⟨idx ++ old.drop idx.length, idx.length⟩ (pyLines old) =
      fwrite ⟨old, 0⟩ (idx ++ old) := by
    rw [foldl_fwrite _ (by rw [List.length_append]; omega), catStrs_pyLines]
    have hf : (⟨idx ++ old.drop idx.length, idx.length⟩ : WFile) = fwrite ⟨old, 0⟩ idx := by
      rw [fwrite]
      simp
    rw [hf, fwrite_fwrite (by omega)]
  rw [splice]
  simp only [hc, e1, e2, e3]
  rw [fwrite]
  simp only [List.take_zero, List.nil_append]
  rw [List.drop_eq_nil_of_le (by rw [List.length_append]; omega), List.append_nil]

theorem splice_roundtrip {pre mid : List Str} {idx suf : Str}
    (hpre : ∀ l ∈ pre, IsLine l ∧ l ≠ start_marker)
    (hmid : ∀ l ∈ mid, IsLine l ∧ l ≠ end_marker) :
    splice idx (catStrs pre ++ (start_marker ++ (catStrs mid ++ (end_marker ++ suf)))) =
      catStrs pre ++ (idx ++ suf) := by
  have hlines : pyLines (catStrs pre ++ (start_marker ++ (catStrs mid ++ (end_marker ++ suf)))) =
      pre ++ (start_marker :: (mid ++ (end_marker :: pyLines suf))) := by
    rw [pyLines_lines_append (fun l hl => (hpre l hl).1),
      pyLines_line_append isLine_start_marker,
      pyLines_lines_append (fun l hl => (hmid l hl).1),
      pyLines_line_append isLine_end_marker]
  have hc := copyUntilMarker_found pre (mid ++ end_marker :: pyLines suf) ⟨[], 0⟩
    (fun l hl => (hpre l hl).2)
  have e1 : List.foldl fwrite ⟨[], 0⟩ pre = ⟨catStrs pre, (catStrs pre).length⟩ := by
    rw [foldl_fwrite _ (by simp), fwrite_empty]
  have hskip : skipUntilEnd (mid ++ end_marker :: pyLines suf) = pyLines suf :=
    skipUntilEnd_found mid _ (fun l hl => (hmid l hl).2)
  have e2 : fwrite ⟨catStrs pre, (catStrs pre).length⟩ idx =
      ⟨catStrs pre ++ idx, (catStrs pre ++ idx).length⟩ := by
    rw [fwrite_from_end, List.length_append]
  have e3 : List.foldl fwrite ⟨catStrs pre ++ idx, (catStrs pre ++ idx).length⟩
      (pyLines suf) = ⟨(catStrs pre ++ idx) ++ suf, ((catStrs pre ++ idx) ++ suf).length⟩ := by
    rw [foldl_fwrite _ le_rfl, catStrs_pyLines, fwrite_from_end]
    simp [List.length_append]
    omega
  rw [splice, hlines]
  simp only [hc, hskip, e1, e2, e3]
  rw [List.append_assoc]

theorem splice_no_end {pre : List Str} {idx rest : Str}
    (hpre : ∀ l ∈ pre, IsLine l ∧ l ≠ start_marker)
    (hend : end_marker ∉ pyLines rest) :
    splice idx (catStrs pre ++ (start_marker ++ rest)) = catStrs pre ++ idx := by
  have hlines : pyLines (catStrs pre ++ (start_marker ++ rest)) =
      pre ++ (start_marker :: pyLines rest) := by
    rw [pyLines_lines_append (fun l hl => (hpre l hl).1),
      pyLines_line_append isLine_start_marker]
  have hc := copyUntilMarker_found pre (pyLines rest) ⟨[], 0⟩
    (fun l hl => (hpre l hl).2)
  have e1 : List.foldl fwrite ⟨[], 0⟩ pre = ⟨catStrs pre, (catStrs pre).length⟩ := by
    rw [foldl_fwrite _ (by simp), fwrite_empty]
  have hskip : skipUntilEnd (pyLines rest) = [] := skipUntilEnd_no_marker _ hend
  have e2 : fwrite ⟨catStrs pre, (catStrs pre).length⟩ idx =
      ⟨catStrs pre ++ idx, (catStrs pre ++ idx).length⟩ := by
    rw [fwrite_from_end, List.length_append]
  rw [splice, hlines]
  simp only [hc, hskip, e1, e2, List.foldl_nil]

theorem generate_shape {dir : List DirEntry} {idx : Str}
    (hgen : generate_page_index dir = some idx) :
    ∃ body, idx = start_marker ++ (body ++ end_marker) := by
  rw [generate_page_index] at hgen
  rcases hb : buildTreeOfDir dir with _ | t
  · simp only [hb] at hgen
    exact absurd hgen (by simp)
  · simp only [hb] at hgen
    rcases hr : renderVal (PyVal.vdict t) 2 with _ | b0
    · simp only [hr, Option.map_none'] at hgen
      exact absurd hgen (by simp)
    · rw [hr, Option.map_some'] at hgen
      injection hgen with hgen
      refine ⟨"\n# Page Index\n\n".data ++ b0, ?_⟩
      rw [← hgen]
      simp [List.append_assoc]

/-- C1: when the old `Home.md` is a preamble of proper non-marker lines,
the exact start marker line, any proper non-end-marker lines, the exact
end marker line, and a suffix, the new `Home.md` is the preamble, the
freshly generated index, and the suffix; the generated index itself starts
with the start marker line and ends with the end marker line, and the old
in-between lines and old marker lines are not re-emitted. -/
theorem C1_splice_roundtrip (dir : List DirEntry) (idx suf : Str) (pre mid : List Str)
    (hgen : generate_page_index dir = some idx)
    (hpre : ∀ l ∈ pre, IsLine l ∧ l ≠ start_marker)
    (hmid : ∀ l ∈ mid, IsLine l ∧ l ≠ end_marker) :
    insert_page_index dir
        (catStrs pre ++ (start_marker ++ (catStrs mid ++ (end_marker ++ suf)))) =
      some (catStrs pre ++ (idx ++ suf)) ∧
    ∃ body, idx = start_marker ++ (body ++ end_marker) := by
  constructor
  · rw [insert_page_index, hgen, Option.map_some', splice_roundtrip hpre hmid]
  · exact generate_shape hgen

/-- C2: when no line of the old `Home.md` equals the start marker, the new
`Home.md` is the generated index followed by the entire original content
from its own beginning — the preamble copied during the failed scan is
fully overwritten after `seek(0)`. -/
theorem C2_no_marker (dir : List DirEntry) (idx old : Str)
    (hgen : generate_page_index dir = some idx)
    (hm : start_marker ∉ pyLines old) :
    insert_page_index dir old = some (idx ++ old) := by
  rw [insert_page_index, hgen, Option.map_some', splice_no_marker hm]

/-- C7: when the start marker is found but no later line equals the end
marker, insertion does not fail; the new `Home.md` is the preamble
followed by the generated index, and everything from the start marker on
is dropped. -/
theorem C7_end_marker_missing (dir : List DirEntry) (idx rest : Str) (pre : List Str)
    (hgen : generate_page_index dir = some idx)
    (hpre : ∀ l ∈ pre, IsLine l ∧ l ≠ start_marker)
    (hend : end_marker ∉ pyLines rest) :
    insert_page_index dir (catStrs pre ++ (start_marker ++ rest)) =
      some (catStrs pre ++ idx) := by
  rw [insert_page_index, hgen, Option.map_some', splice_no_end hpre hend]

/-- On a directory holding one empty regular page, the generated index is
the start marker line, the heading block, and the end marker line. -/
theorem gen_sample :
    generate_page_index [⟨"P.md".data, true, []⟩] =
      some (start_marker ++ ("\n# Page Index\n\n".data ++ end_marker)) := by
  have hr : renderVal (PyVal.vdict newNode) 2 = some [] := by
    rw [renderVal]
    simp [newNode, lookupA, untaggedKey, pySorted, insSorted, removeFirst, renderKeys, catStrs]
  have hb : buildTreeOfDir [⟨"P.md".data, true, []⟩] = some newNode := by rfl
  rw [generate_page_index]
  simp only [hb, hr, Option.map_some']
  decide

theorem C1_splice_roundtrip_witness :
    insert_page_index [⟨"P.md".data, true, []⟩]
        (catStrs ["before\n".data] ++
          (start_marker ++ (catStrs ["old\n".data] ++ (end_marker ++ "after\n".data)))) =
      some (catStrs ["before\n".data] ++
        ((start_marker ++ ("\n# Page Index\n\n".data ++ end_marker)) ++ "after\n".data)) ∧
    ∃ body, start_marker ++ ("\n# Page Index\n\n".data ++ end_marker) =
      start_marker ++ (body ++ end_marker) :=
  C1_splice_roundtrip _ _ _ _ _ gen_sample
    (by
      intro l hl
      simp only [List.mem_singleton] at hl
      subst hl
      exact ⟨⟨"before".data, rfl, by decide⟩, by decide⟩)
    (by
      intro l hl
      simp only [List.mem_singleton] at hl
      subst hl
      exact ⟨⟨"old".data, rfl, by decide⟩, by decide⟩)

theorem C2_no_marker_witness :
    insert_page_index [⟨"P.md".data, true, []⟩] "just some text\n".data =
      some ((start_marker ++ ("\n# Page Index\n\n".data ++ end_marker)) ++
        "just some text\n".data) :=
  C2_no_marker _ _ _ gen_sample (by decide)

theorem C7_end_marker_missing_witness :
    insert_page_index [⟨"P.md".data, true, []⟩]
        (catStrs ["before\n".data] ++ (start_marker ++ "old\n".data)) =
      some (catStrs ["before\n".data] ++
        (start_marker ++ ("\n# Page Index\n\n".data ++ end_marker))) :=
  C7_end_marker_missing _ _ _ _ gen_sample
    (by
      intro l hl
      simp only [List.mem_singleton] at hl
      subst hl
      exact ⟨⟨"before".data, rfl, by decide⟩, by decide⟩)
    (by decide)

/-!
## Link rendering (claim C8)
-/

theorem catStrs_mem_middle {f : Str → Str} {x : Str} :
    ∀ {l : List Str}, x ∈ l → ∃ pre post, catStrs (l.map f) = pre ++ (f x ++ post)
  | [], hx => absurd hx (List.not_mem_nil x)
  | y :: ys, hx => by
    rcases List.mem_cons.mp hx with h | h
    · subst h
      exact ⟨[], catStrs (ys.map f), rfl⟩
    · obtain ⟨pre, post, hp⟩ := catStrs_mem_middle h
      refine ⟨f y ++ pre, post, ?_⟩
      show f y ++ catStrs (ys.map f) = (f y ++ pre) ++ (f x ++ post)
      rw [hp, List.append_assoc]

/-- C8: whenever the renderer succeeds on a node, every page of that
node's untagged set contributes the line `[text](wiki/target)` followed by
a blank line, where `target` is the file name with its extension removed
(dashes kept) and `text` is that stripped name with every dash replaced by
a space. -/
theorem C8_link_rendering (es : Dict) (level : Nat) (r fn : Str) (pages : List Str)
    (hu : lookupA untaggedKey es = some (PyVal.vset pages))
    (hfn : fn ∈ pages)
    (hr : renderVal (PyVal.vdict es) level = some r) :
    ∃ pre post, r = pre ++
      (("[".data ++ ((splitextRoot fn).map dashToSpace ++
        ("](wiki/".data ++ (splitextRoot fn ++ ")\n\n".data)))) ++ post) := by
  rw [renderVal] at hr
  simp only [hu] at hr
  rcases hrm : removeFirst untaggedKey (pySorted (es.map Prod.fst)) with _ | subTags
  · simp only [hrm] at hr
    exact absurd hr (by simp)
  · simp only [hrm] at hr
    rcases hrk : renderKeys es level subTags with _ | rest
    · simp only [hrk, Option.map_none'] at hr
      exact absurd hr (by simp)
    · simp only [hrk, Option.map_some'] at hr
      injection hr with hr
      obtain ⟨pre, post, hp⟩ := @catStrs_mem_middle linkLine fn _ (mem_pySorted.mpr hfn)
      refine ⟨pre, post ++ rest, ?_⟩
      rw [← hr, hp]
      simp [linkLine, List.append_assoc]

theorem C8_link_rendering_witness :
    ∃ pre post, "[My Page](wiki/My-Page)\n\n".data = pre ++
      (("[".data ++ ((splitextRoot "My-Page.md".data).map dashToSpace ++
        ("](wiki/".data ++ (splitextRoot "My-Page.md".data ++ ")\n\n".data)))) ++ post) :=
  C8_link_rendering [(untaggedKey, PyVal.vset ["My-Page.md".data])] 2
    "[My Page](wiki/My-Page)\n\n".data "My-Page.md".data ["My-Page.md".data]
    rfl (by decide)
    (by
      rw [renderVal]
      simp [lookupA, untaggedKey, pySorted, insSorted, removeFirst, renderKeys,
        catStrs, linkLine, splitextRoot, dashToSpace])

/-!
## Order independence (claim C10): assoc-list algebra
-/

theorem lookupA_updateA_self {k : Str} {t : Dict} {w : PyVal} (v : PyVal)
    (h : lookupA k t = some w) : lookupA k (updateA k v t) = some v := by
  induction t with
  | nil => simp [lookupA] at h
  | cons e rest ih =>
    obtain ⟨k', v'⟩ := e
    by_cases hk : k = k'
    · simp [lookupA, updateA, hk]
    · rw [lookupA, if_neg hk] at h
      rw [updateA, if_neg hk, lookupA, if_neg hk]
      exact ih h

theorem updateA_absent {k : Str} {t : Dict} (v : PyVal)
    (h : lookupA k t = none) : updateA k v t = t := by
  induction t with
  | nil => rfl
  | cons e rest ih =>
    obtain ⟨k', v'⟩ := e
    by_cases hk : k = k'
    · rw [lookupA, if_pos hk] at h
      cases h
    · rw [lookupA, if_neg hk] at h
      rw [updateA, if_neg hk, ih h]

theorem lookupA_updateA_ne {k1 k2 : Str} {t : Dict} (v : PyVal) (hk : k1 ≠ k2) :
    lookupA k1 (updateA k2 v t) = lookupA k1 t := by
  induction t with
  | nil => rfl
  | cons e rest ih =>
    obtain ⟨k', v'⟩ := e
    by_cases h2 : k2 = k'
    · subst h2
      rw [updateA, if_pos rfl, lookupA, lookupA, if_neg hk, if_neg hk]
    · rw [updateA, if_neg h2, lookupA, lookupA]
      by_cases h1 : k1 = k'
      · rw [if_pos h1, if_pos h1]
      · rw [if_neg h1, if_neg h1]
        exact ih

theorem lookupA_insKey_self {k : Str} {t : Dict} (v : PyVal)
    (h : lookupA k t = none) : lookupA k (insKey k v t) = some v := by
  induction t with
  | nil => simp [insKey, lookupA]
  | cons e rest ih =>
    obtain ⟨k', v'⟩ := e
    rw [lookupA] at h
    by_cases hk : k = k'
    · rw [if_pos hk] at h
      cases h
    · rw [if_neg hk] at h
      rw [insKey]
      by_cases hlt : strLt k k' = true
      · rw [if_pos hlt, lookupA, if_pos rfl]
      · rw [if_neg hlt, lookupA, if_neg hk]
        exact ih h

theorem lookupA_insKey_ne {k1 k2 : Str} {t : Dict} (v : PyVal) (hk : k1 ≠ k2) :
    lookupA k1 (insKey k2 v t) = lookupA k1 t := by
  induction t with
  | nil => simp [insKey, lookupA, if_neg hk]
  | cons e rest ih =>
    obtain ⟨k', v'⟩ := e
    rw [insKey]
    by_cases hlt : strLt k2 k' = true
    · rw [if_pos hlt, lookupA, if_neg hk]
    · rw [if_neg hlt, lookupA, lookupA]
      by_cases h1 : k1 = k'
      · rw [if_pos h1, if_pos h1]
      · rw [if_neg h1, if_neg h1]
        exact ih

theorem updateA_updateA_ne {k1 k2 : Str} (v1 v2 : PyVal) (t : Dict) (hk : k1 ≠ k2) :
    updateA k1 v1 (updateA k2 v2 t) = updateA k2 v2 (updateA k1 v1 t) := by
  induction t with
  | nil => rfl
  | cons e rest ih =>
    obtain ⟨k', v'⟩ := e
    by_cases h2 : k2 = k'
    · subst h2
      rw [updateA, if_pos rfl, updateA, if_neg hk, updateA, if_neg hk,
        updateA, if_pos rfl]
    · by_cases h1 : k1 = k'
      · subst h1
        rw [updateA, if_neg h2, updateA, if_pos rfl, updateA, if_pos rfl,
          updateA, if_neg h2]
      · rw [updateA, if_neg h2, updateA, if_neg h1, updateA, if_neg h1,
          updateA, if_neg h2, ih]

theorem updateA_updateA_self {k : Str} (v1 v2 : PyVal) (t : Dict) :
    updateA k v1 (updateA k v2 t) = updateA k v1 t := by
  induction t with
  | nil => rfl
  | cons e rest ih =>
    obtain ⟨k', v'⟩ := e
    by_cases hk : k = k'
    · rw [updateA, if_pos hk, updateA, if_pos rfl, updateA, if_pos hk]
    · rw [updateA, if_neg hk, updateA, if_neg hk, updateA, if_neg hk, ih]

theorem updateA_insKey_ne {k1 k2 : Str} (v1 v2 : PyVal) (t : Dict) (hk : k1 ≠ k2) :
    updateA k1 v1 (insKey k2 v2 t) = insKey k2 v2 (updateA k1 v1 t) := by
  induction t with
  | nil => simp [insKey, updateA, if_neg hk]
  | cons e rest ih =>
    obtain ⟨k', v'⟩ := e
    by_cases hlt : strLt k2 k' = true
    · by_cases h1 : k1 = k'
      · subst h1
        simp [insKey, updateA, hlt, hk]
      · simp [insKey, updateA, hlt, hk, h1]
    · by_cases h1 : k1 = k'
      · subst h1
        simp [insKey, updateA, hlt, hk]
      · simp [insKey, updateA, hlt, hk, h1, ih]

theorem updateA_insKey_self {k : Str} (v1 v2 : PyVal) (t : Dict)
    (h : lookupA k t = none) : updateA k v1 (insKey k v2 t) = insKey k v1 t := by
  induction t with
  | nil => simp [insKey, updateA]
  | cons e rest ih =>
    obtain ⟨k', v'⟩ := e
    rw [lookupA] at h
    by_cases hke : k = k'
    · rw [if_pos hke] at h
      cases h
    · rw [if_neg hke] at h
      by_cases hlt : strLt k k' = true
      · simp [insKey, updateA, hlt, hke]
      · simp [insKey, updateA, hlt, hke, ih h]

theorem insKey_insKey_ne {k1 k2 : Str} (v1 v2 : PyVal) (t : Dict)
    (hk : k1 ≠ k2) :
    insKey k1 v1 (insKey k2 v2 t) = insKey k2 v2 (insKey k1 v1 t) := by
  induction t with
  | nil =>
    by_cases h12 : strLt k1 k2 = true
    · simp [insKey, h12, strLt_asymm _ _ h12]
    · have h21 : strLt k2 k1 = true := by
        rcases Bool.eq_false_or_eq_true (strLt k2 k1) with h | h
        · exact h
        · exact absurd (strLt_total _ _ (by simpa using h12) h) hk
      simp [insKey, h12, h21]
  | cons e rest ih =>
    obtain ⟨k', v'⟩ := e
    by_cases h1 : strLt k1 k' = true <;> by_cases h2 : strLt k2 k' = true
    · by_cases h12 : strLt k1 k2 = true
      · simp [insKey, h1, h2, h12, strLt_asymm _ _ h12]
      · have h21 : strLt k2 k1 = true := by
          rcases Bool.eq_false_or_eq_true (strLt k2 k1) with h | h
          · exact h
          · exact absurd (strLt_total _ _ (by simpa using h12) h) hk
        simp [insKey, h1, h2, h12, h21]
    · have h21 : strLt k2 k1 = false := by
        rcases Bool.eq_false_or_eq_true (strLt k2 k1) with h | h
        · exact absurd (strLt_trans _ _ _ h h1) (by simpa using h2)
        · exact h
      simp [insKey, h1, h2, h21]
    · have h12 : strLt k1 k2 = false := by
        rcases Bool.eq_false_or_eq_true (strLt k1 k2) with h | h
        · exact absurd (strLt_trans _ _ _ h h2) (by simpa using h1)
        · exact h
      simp [insKey, h1, h2, h12]
    · simp [insKey, h1, h2, ih]

theorem insPage_comm {a b : Str} (ps : List Str) (hab : a ≠ b) :
    insPage a (insPage b ps) = insPage b (insPage a ps) := by
  induction ps with
  | nil =>
    by_cases h1 : strLt a b = true
    · simp [insPage, h1, strLt_asymm _ _ h1, hab.symm]
    · have h2 : strLt b a = true := by
        rcases Bool.eq_false_or_eq_true (strLt b a) with h | h
        · exact h
        · exact absurd (strLt_total _ _ h (by simpa using h1)) hab.symm
      simp [insPage, h1, h2, hab]
  | cons y ys ih =>
    by_cases h1 : strLt a y = true <;> by_cases h2 : strLt b y = true
    · by_cases h12 : strLt a b = true
      · simp [insPage, h1, h2, h12, strLt_asymm _ _ h12, hab.symm]
      · have h21 : strLt b a = true := by
          rcases Bool.eq_false_or_eq_true (strLt b a) with h | h
          · exact h
          · exact absurd (strLt_total _ _ h (by simpa using h12)) hab.symm
        simp [insPage, h1, h2, h12, h21, hab]
    · have h21 : strLt b a = false := by
        rcases Bool.eq_false_or_eq_true (strLt b a) with h | h
        · exact absurd (strLt_trans _ _ _ h h1) (by simpa using h2)
        · exact h
      by_cases hby : b = y
      · subst hby
        simp [insPage, h1, h2, h21, hab.symm]
      · simp [insPage, h1, h2, h21, hby, hab.symm]
    · have h12 : strLt a b = false := by
        rcases Bool.eq_false_or_eq_true (strLt a b) with h | h
        · exact absurd (strLt_trans _ _ _ h h2) (by simpa using h1)
        · exact h
      by_cases hay : a = y
      · subst hay
        simp [insPage, h1, h2, h12, hab]
      · simp [insPage, h1, h2, h12, hay, hab]
    · by_cases hay : a = y <;> by_cases hby : b = y
      · exact absurd (hay.trans hby.symm) hab
      · subst hay
        simp [insPage, h1, h2, hby, hab.symm]
      · subst hby
        simp [insPage, h1, h2, hay, hab]
      · simp [insPage, h1, h2, hay, hby, ih]

theorem dropPage_comm (a b : Str) (ps : List Str) :
    dropPage a (dropPage b ps) = dropPage b (dropPage a ps) := by
  induction ps with
  | nil => rfl
  | cons y ys ih =>
    by_cases ha : y = a <;> by_cases hb : y = b <;>
      simp [dropPage, ha, hb] <;> simpa [dropPage] using ih

theorem insPage_all_lt {b : Str} {l : List Str}
    (h : ∀ z ∈ l, strLt b z = true) : insPage b l = b :: l := by
  cases l with
  | nil => rfl
  | cons z zs => rw [insPage, if_pos (h z (List.mem_cons_self z zs))]

theorem dropPage_insPage {a b : Str} (ps : List Str) (hab : a ≠ b)
    (hs : SortedStr ps) :
    dropPage a (insPage b ps) = insPage b (dropPage a ps) := by
  induction ps with
  | nil => simp [insPage, dropPage, Ne.symm hab]
  | cons y ys ih =>
    rw [SortedStr, List.pairwise_cons] at hs
    obtain ⟨hy, hys⟩ := hs
    by_cases hlt : strLt b y = true
    · by_cases ha : y = a
      · subst ha
        rw [insPage, if_pos hlt]
        have hfront : insPage b (dropPage y ys) = b :: dropPage y ys := by
          refine insPage_all_lt (fun z hz => ?_)
          have hz' : z ∈ ys := List.mem_of_mem_filter hz
          exact strLt_trans _ _ _ hlt (hy z hz')
        simp only [dropPage, ne_eq, decide_not] at hfront
        simp [dropPage, Ne.symm hab, hfront]
      · rw [insPage, if_pos hlt]
        simp [dropPage, Ne.symm hab, ha, insPage, hlt]
    · by_cases hb : b = y
      · subst hb
        rw [insPage, if_neg hlt, if_pos rfl]
        simp [dropPage, Ne.symm hab, insPage, hlt]
      · rw [insPage, if_neg hlt, if_neg hb]
        by_cases ha : y = a
        · simp only [dropPage, ne_eq, decide_not] at ih
          simp [dropPage, ha, ih hys]
        · simp only [dropPage, ne_eq, decide_not] at ih
          simp [dropPage, ha, ih hys, insPage, hlt, hb]

theorem addPath_nil_comm (p2 : List Str) (fn1 fn2 : Str) (t : Dict)
    (hf : fn1 ≠ fn2) :
    (addPath fn1 [] t).bind (addPath fn2 p2) =
      (addPath fn2 p2 t).bind (addPath fn1 []) := by
  cases p2 with
  | nil =>
    rcases hu : lookupA untaggedKey t with _ | v
    · have s1 : ∀ v : PyVal, lookupA untaggedKey (insKey untaggedKey v t) = some v :=
        fun v => lookupA_insKey_self v hu
      have s2 : ∀ v w : PyVal,
          updateA untaggedKey v (insKey untaggedKey w t) = insKey untaggedKey v t :=
        fun v w => updateA_insKey_self v w t hu
      have h12 : insPage fn2 [fn1] = insPage fn1 [fn2] :=
        @insPage_comm fn2 fn1 [] (Ne.symm hf)
      simp only [addPath, hu, s1, s2, Option.some_bind, h12]
    · cases v with
      | vset ps =>
        have s1 : ∀ v : PyVal,
            lookupA untaggedKey (updateA untaggedKey v t) = some v :=
          fun v => lookupA_updateA_self v hu
        simp only [addPath, hu, s1, Option.some_bind, updateA_updateA_self]
        rw [insPage_comm ps (Ne.symm hf)]
      | vdict d =>
        simp only [addPath, hu, Option.none_bind, Option.some_bind]
  | cons seg r2 =>
    by_cases hseg : seg = untaggedKey
    · subst hseg
      rcases hu : lookupA untaggedKey t with _ | v
      · have s1 : ∀ v : PyVal,
            lookupA untaggedKey (insKey untaggedKey v t) = some v :=
          fun v => lookupA_insKey_self v hu
        rcases hrec : addPath fn2 r2 newNode with _ | d2
        · simp only [addPath, hu, hrec, Option.some_bind, Option.map_none',
            Option.none_bind, s1]
        · simp only [addPath, hu, hrec, Option.some_bind, Option.map_some', s1]
      · cases v with
        | vset ps =>
          have s1 : ∀ v : PyVal,
              lookupA untaggedKey (updateA untaggedKey v t) = some v :=
            fun v => lookupA_updateA_self v hu
          simp only [addPath, hu, Option.some_bind, Option.none_bind, s1]
        | vdict d =>
          rcases hrec : addPath fn2 r2 d with _ | d2
          · simp only [addPath, hu, hrec, Option.none_bind, Option.map_none']
          · have s1 : ∀ v : PyVal,
                lookupA untaggedKey (updateA untaggedKey v t) = some v :=
              fun v => lookupA_updateA_self v hu
            simp only [addPath, hu, hrec, Option.none_bind, Option.map_some',
              Option.some_bind, s1]
    · have g1 : ∀ v : PyVal, lookupA seg (updateA untaggedKey v t) = lookupA seg t :=
        fun v => lookupA_updateA_ne v hseg
      have g2 : ∀ v : PyVal, lookupA seg (insKey untaggedKey v t) = lookupA seg t :=
        fun v => lookupA_insKey_ne v hseg
      have g3 : ∀ v : PyVal,
          lookupA untaggedKey (updateA seg v t) = lookupA untaggedKey t :=
        fun v => lookupA_updateA_ne v (Ne.symm hseg)
      have g4 : ∀ v : PyVal,
          lookupA untaggedKey (insKey seg v t) = lookupA untaggedKey t :=
        fun v => lookupA_insKey_ne v (Ne.symm hseg)
      have e5 : ∀ v w : PyVal,
          updateA seg v (updateA untaggedKey w t) =
            updateA untaggedKey w (updateA seg v t) :=
        fun v w => updateA_updateA_ne v w t hseg
      have e6 : ∀ v w : PyVal,
          updateA seg v (insKey untaggedKey w t) =
            insKey untaggedKey w (updateA seg v t) :=
        fun v w => updateA_insKey_ne v w t hseg
      have e7 : ∀ v w : PyVal,
          insKey seg v (updateA untaggedKey w t) =
            updateA untaggedKey w (insKey seg v t) :=
        fun v w => (updateA_insKey_ne w v t (Ne.symm hseg)).symm
      have e8 : ∀ v w : PyVal,
          insKey seg v (insKey untaggedKey w t) =
            insKey untaggedKey w (insKey seg v t) :=
        fun v w => insKey_insKey_ne v w t hseg
      rcases hu : lookupA untaggedKey t with _ | v
      · rcases hs : lookupA seg t with _ | w
        · rcases hrec : addPath fn2 r2 newNode with _ | d2
          · simp only [addPath, hu, hs, hrec, g1, g2, g3, g4, Option.some_bind,
              Option.map_none', Option.none_bind]
          · simp only [addPath, hu, hs, hrec, g1, g2, g3, g4, e8,
              Option.some_bind, Option.map_some']
        · cases w with
          | vset qs =>
            simp only [addPath, hu, hs, g1, g2, g3, g4, Option.some_bind,
              Option.none_bind]
          | vdict d =>
            rcases hrec : addPath fn2 r2 d with _ | d2
            · simp only [addPath, hu, hs, hrec, g1, g2, g3, g4,
                Option.some_bind, Option.map_none', Option.none_bind]
            · simp only [addPath, hu, hs, hrec, g1, g2, g3, g4, e6,
                Option.some_bind, Option.map_some']
      · cases v with
        | vset ps =>
          rcases hs : lookupA seg t with _ | w
          · rcases hrec : addPath fn2 r2 newNode with _ | d2
            · simp only [addPath, hu, hs, hrec, g1, g2, g3, g4,
                Option.some_bind, Option.map_none', Option.none_bind]
            · simp only [addPath, hu, hs, hrec, g1, g2, g3, g4, e7,
                Option.some_bind, Option.map_some']
          · cases w with
            | vset qs =>
              simp only [addPath, hu, hs, g1, g2, g3, g4, Option.some_bind,
                Option.none_bind]
            | vdict d =>
              rcases hrec : addPath fn2 r2 d with _ | d2
              · simp only [addPath, hu, hs, hrec, g1, g2, g3, g4,
                  Option.some_bind, Option.map_none', Option.none_bind]
              · simp only [addPath, hu, hs, hrec, g1, g2, g3, g4, e5,
                  Option.some_bind, Option.map_some']
        | vdict d0 =>
          rcases hs : lookupA seg t with _ | w
          · rcases hrec : addPath fn2 r2 newNode with _ | d2
            · simp only [addPath, hu, hs, hrec, g1, g2, g3, g4,
                Option.none_bind, Option.map_none']
            · simp only [addPath, hu, hs, hrec, g1, g2, g3, g4,
                Option.none_bind, Option.map_some', Option.some_bind]
          · cases w with
            | vset qs =>
              simp only [addPath, hu, hs, g1, g2, g3, g4, Option.none_bind]
            | vdict d =>
              rcases hrec : addPath fn2 r2 d with _ | d2
              · simp only [addPath, hu, hs, hrec, g1, g2, g3, g4,
                  Option.none_bind, Option.map_none']
              · simp only [addPath, hu, hs, hrec, g1, g2, g3, g4,
                  Option.none_bind, Option.map_some', Option.some_bind]

theorem addPath_comm (p1 p2 : List Str) (fn1 fn2 : Str) (t : Dict)
    (hf : fn1 ≠ fn2) :
    (addPath fn1 p1 t).bind (addPath fn2 p2) =
      (addPath fn2 p2 t).bind (addPath fn1 p1) := by
  induction p1 generalizing p2 t with
  | nil => exact addPath_nil_comm p2 fn1 fn2 t hf
  | cons seg1 r1 ih =>
    cases p2 with
    | nil => exact (addPath_nil_comm (seg1 :: r1) fn2 fn1 t (Ne.symm hf)).symm
    | cons seg2 r2 =>
      by_cases hss : seg1 = seg2
      · subst hss
        rcases hs : lookupA seg1 t with _ | v
        · have s1 : ∀ v : PyVal, lookupA seg1 (insKey seg1 v t) = some v :=
            fun v => lookupA_insKey_self v hs
          have s2 : ∀ v w : PyVal,
              updateA seg1 v (insKey seg1 w t) = insKey seg1 v t :=
            fun v w => updateA_insKey_self v w t hs
          have hih := ih r2 newNode
          rcases ha : addPath fn1 r1 newNode with _ | d1 <;>
            rcases hb : addPath fn2 r2 newNode with _ | d2
          · simp only [addPath, hs, ha, hb, Option.map_none', Option.none_bind]
          · have h1 : addPath fn1 r1 d2 = none := by
              rw [ha, Option.none_bind, hb, Option.some_bind] at hih
              exact hih.symm
            simp only [addPath, hs, ha, hb, h1, Option.map_none', Option.none_bind, Option.map_some', Option.some_bind, s1]
          · have h2 : addPath fn2 r2 d1 = none := by
              rw [ha, Option.some_bind, hb, Option.none_bind] at hih
              exact hih
            simp only [addPath, hs, ha, hb, h2, Option.map_none', Option.none_bind, Option.map_some', Option.some_bind, s1]
          · rw [ha, Option.some_bind, hb, Option.some_bind] at hih
            rcases hc : addPath fn2 r2 d1 with _ | e
            · have h1 : addPath fn1 r1 d2 = none := by
                rw [hc] at hih
                exact hih.symm
              simp only [addPath, hs, ha, hb, hc, h1, Option.map_some', Option.some_bind, Option.map_none', s1]
            · have h1 : addPath fn1 r1 d2 = some e := by
                rw [hc] at hih
                exact hih.symm
              simp only [addPath, hs, ha, hb, hc, h1, Option.map_some', Option.some_bind, s1, s2]
        · cases v with
          | vset ps =>
            simp only [addPath, hs, Option.none_bind]
          | vdict d =>
            have s1 : ∀ v : PyVal, lookupA seg1 (updateA seg1 v t) = some v :=
              fun v => lookupA_updateA_self v hs
            have hih := ih r2 d
            rcases ha : addPath fn1 r1 d with _ | d1 <;>
              rcases hb : addPath fn2 r2 d with _ | d2
            · simp only [addPath, hs, ha, hb, Option.map_none', Option.none_bind]
            · have h1 : addPath fn1 r1 d2 = none := by
                rw [ha, Option.none_bind, hb, Option.some_bind] at hih
                exact hih.symm
              simp only [addPath, hs, ha, hb, h1, Option.map_none', Option.none_bind, Option.map_some', Option.some_bind, s1]
            · have h2 : addPath fn2 r2 d1 = none := by
                rw [ha, Option.some_bind, hb, Option.none_bind] at hih
                exact hih
              simp only [addPath, hs, ha, hb, h2, Option.map_none', Option.none_bind, Option.map_some', Option.some_bind, s1]
            · rw [ha, Option.some_bind, hb, Option.some_bind] at hih
              rcases hc : addPath fn2 r2 d1 with _ | e
              · have h1 : addPath fn1 r1 d2 = none := by
                  rw [hc] at hih
                  exact hih.symm
                simp only [addPath, hs, ha, hb, hc, h1, Option.map_some', Option.some_bind, Option.map_none', s1]
              · have h1 : addPath fn1 r1 d2 = some e := by
                  rw [hc] at hih
                  exact hih.symm
                simp only [addPath, hs, ha, hb, hc, h1, Option.map_some', Option.some_bind, s1, updateA_updateA_self]
      · have g1 : ∀ v : PyVal, lookupA seg2 (updateA seg1 v t) = lookupA seg2 t :=
          fun v => lookupA_updateA_ne v (Ne.symm hss)
        have g2 : ∀ v : PyVal, lookupA seg2 (insKey seg1 v t) = lookupA seg2 t :=
          fun v => lookupA_insKey_ne v (Ne.symm hss)
        have g3 : ∀ v : PyVal, lookupA seg1 (updateA seg2 v t) = lookupA seg1 t :=
          fun v => lookupA_updateA_ne v hss
        have g4 : ∀ v : PyVal, lookupA seg1 (insKey seg2 v t) = lookupA seg1 t :=
          fun v => lookupA_insKey_ne v hss
        have e5 : ∀ v w : PyVal,
            updateA seg2 v (updateA seg1 w t) = updateA seg1 w (updateA seg2 v t) :=
          fun v w => updateA_updateA_ne v w t (Ne.symm hss)
        have e6 : ∀ v w : PyVal,
            updateA seg2 v (insKey seg1 w t) = insKey seg1 w (updateA seg2 v t) :=
          fun v w => updateA_insKey_ne v w t (Ne.symm hss)
        have e7 : ∀ v w : PyVal,
            insKey seg2 v (updateA seg1 w t) = updateA seg1 w (insKey seg2 v t) :=
          fun v w => (updateA_insKey_ne w v t hss).symm
        have e8 : ∀ v w : PyVal,
            insKey seg2 v (insKey seg1 w t) = insKey seg1 w (insKey seg2 v t) :=
          fun v w => insKey_insKey_ne v w t (Ne.symm hss)
        rcases hs1 : lookupA seg1 t with _ | v
        · rcases ha : addPath fn1 r1 newNode with _ | d1
          · rcases hs2 : lookupA seg2 t with _ | w
            · rcases hb : addPath fn2 r2 newNode with _ | d2
              · simp only [addPath, hs1, hs2, g1, g2, g3, g4, ha, hb, Option.map_none', Option.none_bind]
              · simp only [addPath, hs1, hs2, g1, g2, g3, g4, ha, hb, Option.map_none', Option.none_bind, Option.map_some', Option.some_bind]
            · cases w with
              | vset qs =>
                simp only [addPath, hs1, hs2, g1, g2, g3, g4, ha, Option.map_none', Option.none_bind]
              | vdict d =>
                rcases hb : addPath fn2 r2 d with _ | d2
                · simp only [addPath, hs1, hs2, g1, g2, g3, g4, ha, hb, Option.map_none', Option.none_bind]
                · simp only [addPath, hs1, hs2, g1, g2, g3, g4, ha, hb, Option.map_none', Option.none_bind, Option.map_some', Option.some_bind]
          · rcases hs2 : lookupA seg2 t with _ | w
            · rcases hb : addPath fn2 r2 newNode with _ | d2
              · simp only [addPath, hs1, hs2, g1, g2, g3, g4, ha, hb, Option.map_none', Option.none_bind, Option.map_some', Option.some_bind]
              · simp only [addPath, hs1, hs2, g1, g2, g3, g4, ha, hb, e8, Option.map_some', Option.some_bind]
            · cases w with
              | vset qs =>
                simp only [addPath, hs1, hs2, g1, g2, g3, g4, ha, Option.map_some', Option.some_bind, Option.none_bind]
              | vdict d =>
                rcases hb : addPath fn2 r2 d with _ | d2
                · simp only [addPath, hs1, hs2, g1, g2, g3, g4, ha, hb, Option.map_some', Option.some_bind, Option.map_none', Option.none_bind]
                · simp only [addPath, hs1, hs2, g1, g2, g3, g4, ha, hb, e6, Option.map_some', Option.some_bind]
        · cases v with
          | vset ps =>
            rcases hs2 : lookupA seg2 t with _ | w
            · rcases hb : addPath fn2 r2 newNode with _ | d2
              · simp only [addPath, hs1, hs2, g1, g2, g3, g4, hb, Option.map_none', Option.none_bind]
              · simp only [addPath, hs1, hs2, g1, g2, g3, g4, hb, Option.map_none', Option.none_bind, Option.map_some', Option.some_bind]
            · cases w with
              | vset qs =>
                simp only [addPath, hs1, hs2, g1, g2, g3, g4, Option.none_bind]
              | vdict d =>
                rcases hb : addPath fn2 r2 d with _ | d2
                · simp only [addPath, hs1, hs2, g1, g2, g3, g4, hb, Option.map_none', Option.none_bind]
                · simp only [addPath, hs1, hs2, g1, g2, g3, g4, hb, Option.map_none', Option.none_bind, Option.map_some', Option.some_bind]
          | vdict c =>
            rcases ha : addPath fn1 r1 c with _ | d1
            · rcases hs2 : lookupA seg2 t with _ | w
              · rcases hb : addPath fn2 r2 newNode with _ | d2
                · simp only [addPath, hs1, hs2, g1, g2, g3, g4, ha, hb, Option.map_none', Option.none_bind]
                · simp only [addPath, hs1, hs2, g1, g2, g3, g4, ha, hb, Option.map_none', Option.none_bind, Option.map_some', Option.some_bind]
              · cases w with
                | vset qs =>
                  simp only [addPath, hs1, hs2, g1, g2, g3, g4, ha, Option.map_none', Option.none_bind]
                | vdict d =>
                  rcases hb : addPath fn2 r2 d with _ | d2
                  · simp only [addPath, hs1, hs2, g1, g2, g3, g4, ha, hb, Option.map_none', Option.none_bind]
                  · simp only [addPath, hs1, hs2, g1, g2, g3, g4, ha, hb, Option.map_none', Option.none_bind, Option.map_some', Option.some_bind]
            · rcases hs2 : lookupA seg2 t with _ | w
              · rcases hb : addPath fn2 r2 newNode with _ | d2
                · simp only [addPath, hs1, hs2, g1, g2, g3, g4, ha, hb, Option.map_some', Option.some_bind, Option.map_none', Option.none_bind]
                · simp only [addPath, hs1, hs2, g1, g2, g3, g4, ha, hb, e7, Option.map_some', Option.some_bind]
              · cases w with
                | vset qs =>
                  simp only [addPath, hs1, hs2, g1, g2, g3, g4, ha, Option.map_some', Option.some_bind, Option.none_bind]
                | vdict d =>
                  rcases hb : addPath fn2 r2 d with _ | d2
                  · simp only [addPath, hs1, hs2, g1, g2, g3, g4, ha, hb, Option.map_some', Option.some_bind, Option.map_none', Option.none_bind]
                  · simp only [addPath, hs1, hs2, g1, g2, g3, g4, ha, hb, e5, Option.map_some', Option.some_bind]

/-- The root invariant the scan loop maintains: the root dict binds
`"untagged"` to a sorted set. -/
def RootSet (t : Dict) : Prop :=
  ∃ ps, lookupA untaggedKey t = some (PyVal.vset ps) ∧ SortedStr ps

theorem rootAdd_pres {fn : Str} {t t' : Dict} (h : RootSet t)
    (he : rootUntaggedAdd fn t = some t') : RootSet t' := by
  obtain ⟨ps, hl, hs⟩ := h
  simp only [rootUntaggedAdd, hl, Option.some.injEq] at he
  subst he
  exact ⟨insPage fn ps, lookupA_updateA_self _ hl, insPage_sorted hs⟩

theorem rootDiscard_pres {fn : Str} {t t' : Dict} (h : RootSet t)
    (he : rootUntaggedDiscard fn t = some t') : RootSet t' := by
  obtain ⟨ps, hl, hs⟩ := h
  simp only [rootUntaggedDiscard, hl, Option.some.injEq] at he
  subst he
  exact ⟨dropPage fn ps, lookupA_updateA_self _ hl, hs.filter _⟩

theorem addPath_pres {fn : Str} (p : List Str) {t t' : Dict} (h : RootSet t)
    (he : addPath fn p t = some t') : RootSet t' := by
  obtain ⟨ps, hl, hs⟩ := h
  cases p with
  | nil =>
    simp only [addPath, hl, Option.some.injEq] at he
    subst he
    exact ⟨insPage fn ps, lookupA_updateA_self _ hl, insPage_sorted hs⟩
  | cons seg r =>
    by_cases hseg : seg = untaggedKey
    · subst hseg
      simp only [addPath, hl] at he
      exact absurd he (by simp)
    · rcases hsg : lookupA seg t with _ | w
      · simp only [addPath, hsg, Option.map_eq_some'] at he
        obtain ⟨d', _, he⟩ := he
        subst he
        exact ⟨ps, by rw [lookupA_insKey_ne _ (Ne.symm hseg)]; exact hl, hs⟩
      · cases w with
        | vset qs =>
          simp only [addPath, hsg] at he
          exact absurd he (by simp)
        | vdict d =>
          simp only [addPath, hsg, Option.map_eq_some'] at he
          obtain ⟨d', _, he⟩ := he
          subst he
          exact ⟨ps, by rw [lookupA_updateA_ne _ (Ne.symm hseg)]; exact hl, hs⟩

theorem rA_rA_comm {fn1 fn2 : Str} {t : Dict} (h : RootSet t) (hf : fn1 ≠ fn2) :
    (rootUntaggedAdd fn1 t).bind (rootUntaggedAdd fn2) =
      (rootUntaggedAdd fn2 t).bind (rootUntaggedAdd fn1) := by
  obtain ⟨ps, hl, hs⟩ := h
  have s1 : ∀ v : PyVal, lookupA untaggedKey (updateA untaggedKey v t) = some v :=
    fun v => lookupA_updateA_self v hl
  simp only [rootUntaggedAdd, hl, Option.some_bind, s1, updateA_updateA_self,
    insPage_comm ps hf]

theorem rA_rD_comm {fn1 fn2 : Str} {t : Dict} (h : RootSet t) (hf : fn1 ≠ fn2) :
    (rootUntaggedAdd fn1 t).bind (rootUntaggedDiscard fn2) =
      (rootUntaggedDiscard fn2 t).bind (rootUntaggedAdd fn1) := by
  obtain ⟨ps, hl, hs⟩ := h
  have s1 : ∀ v : PyVal, lookupA untaggedKey (updateA untaggedKey v t) = some v :=
    fun v => lookupA_updateA_self v hl
  simp only [rootUntaggedAdd, rootUntaggedDiscard, hl, Option.some_bind, s1,
    updateA_updateA_self, dropPage_insPage ps (Ne.symm hf) hs]

theorem rD_rD_comm {fn1 fn2 : Str} {t : Dict} (h : RootSet t) :
    (rootUntaggedDiscard fn1 t).bind (rootUntaggedDiscard fn2) =
      (rootUntaggedDiscard fn2 t).bind (rootUntaggedDiscard fn1) := by
  obtain ⟨ps, hl, hs⟩ := h
  have s1 : ∀ v : PyVal, lookupA untaggedKey (updateA untaggedKey v t) = some v :=
    fun v => lookupA_updateA_self v hl
  simp only [rootUntaggedDiscard, hl, Option.some_bind, s1, updateA_updateA_self,
    dropPage_comm fn2 fn1 ps]

theorem rA_addPath_comm {fn1 fn2 : Str} (p : List Str) {t : Dict} (h : RootSet t)
    (hf : fn1 ≠ fn2) :
    (rootUntaggedAdd fn1 t).bind (addPath fn2 p) =
      (addPath fn2 p t).bind (rootUntaggedAdd fn1) := by
  obtain ⟨ps, hl, hs⟩ := h
  have s1 : ∀ v : PyVal, lookupA untaggedKey (updateA untaggedKey v t) = some v :=
    fun v => lookupA_updateA_self v hl
  cases p with
  | nil =>
    simp only [addPath, rootUntaggedAdd, hl, Option.some_bind, s1,
      updateA_updateA_self, insPage_comm ps hf]
  | cons seg r =>
    by_cases hseg : seg = untaggedKey
    · subst hseg
      simp only [addPath, rootUntaggedAdd, hl, Option.some_bind, s1,
        Option.none_bind]
    · have g3 : ∀ v : PyVal, lookupA seg (updateA untaggedKey v t) = lookupA seg t :=
        fun v => lookupA_updateA_ne v hseg
      have g1 : ∀ v : PyVal,
          lookupA untaggedKey (updateA seg v t) = lookupA untaggedKey t :=
        fun v => lookupA_updateA_ne v (Ne.symm hseg)
      have g2 : ∀ v : PyVal,
          lookupA untaggedKey (insKey seg v t) = lookupA untaggedKey t :=
        fun v => lookupA_insKey_ne v (Ne.symm hseg)
      have e5 : ∀ v w : PyVal,
          updateA seg v (updateA untaggedKey w t) =
            updateA untaggedKey w (updateA seg v t) :=
        fun v w => updateA_updateA_ne v w t hseg
      have e7 : ∀ v w : PyVal,
          insKey seg v (updateA untaggedKey w t) =
            updateA untaggedKey w (insKey seg v t) :=
        fun v w => (updateA_insKey_ne w v t (Ne.symm hseg)).symm
      rcases hsg : lookupA seg t with _ | w
      · rcases hb : addPath fn2 r newNode with _ | d2
        · simp only [addPath, rootUntaggedAdd, hl, hsg, hb, g3, g1, g2,
            Option.some_bind, Option.map_none', Option.none_bind]
        · simp only [addPath, rootUntaggedAdd, hl, hsg, hb, g3, g1, g2, e7,
            Option.some_bind, Option.map_some']
      · cases w with
        | vset qs =>
          simp only [addPath, rootUntaggedAdd, hl, hsg, g3, Option.some_bind,
            Option.none_bind]
        | vdict d =>
          rcases hb : addPath fn2 r d with _ | d2
          · simp only [addPath, rootUntaggedAdd, hl, hsg, hb, g3,
              Option.some_bind, Option.map_none', Option.none_bind]
          · simp only [addPath, rootUntaggedAdd, hl, hsg, hb, g3, g1, e5,
              Option.some_bind, Option.map_some']

theorem rD_addPath_comm {fn1 fn2 : Str} (p : List Str) {t : Dict} (h : RootSet t)
    (hf : fn1 ≠ fn2) :
    (rootUntaggedDiscard fn1 t).bind (addPath fn2 p) =
      (addPath fn2 p t).bind (rootUntaggedDiscard fn1) := by
  obtain ⟨ps, hl, hs⟩ := h
  have s1 : ∀ v : PyVal, lookupA untaggedKey (updateA untaggedKey v t) = some v :=
    fun v => lookupA_updateA_self v hl
  cases p with
  | nil =>
    simp only [addPath, rootUntaggedDiscard, hl, Option.some_bind, s1,
      updateA_updateA_self, dropPage_insPage ps hf hs]
  | cons seg r =>
    by_cases hseg : seg = untaggedKey
    · subst hseg
      simp only [addPath, rootUntaggedDiscard, hl, Option.some_bind, s1,
        Option.none_bind]
    · have g3 : ∀ v : PyVal, lookupA seg (updateA untaggedKey v t) = lookupA seg t :=
        fun v => lookupA_updateA_ne v hseg
      have g1 : ∀ v : PyVal,
          lookupA untaggedKey (updateA seg v t) = lookupA untaggedKey t :=
        fun v => lookupA_updateA_ne v (Ne.symm hseg)
      have g2 : ∀ v : PyVal,
          lookupA untaggedKey (insKey seg v t) = lookupA untaggedKey t :=
        fun v => lookupA_insKey_ne v (Ne.symm hseg)
      have e5 : ∀ v w : PyVal,
          updateA seg v (updateA untaggedKey w t) =
            updateA untaggedKey w (updateA seg v t) :=
        fun v w => updateA_updateA_ne v w t hseg
      have e7 : ∀ v w : PyVal,
          insKey seg v (updateA untaggedKey w t) =
            updateA untaggedKey w (insKey seg v t) :=
        fun v w => (updateA_insKey_ne w v t (Ne.symm hseg)).symm
      rcases hsg : lookupA seg t with _ | w
      · rcases hb : addPath fn2 r newNode with _ | d2
        · simp only [addPath, rootUntaggedDiscard, hl, hsg, hb, g3, g1, g2,
            Option.some_bind, Option.map_none', Option.none_bind]
        · simp only [addPath, rootUntaggedDiscard, hl, hsg, hb, g3, g1, g2, e7,
            Option.some_bind, Option.map_some']
      · cases w with
        | vset qs =>
          simp only [addPath, rootUntaggedDiscard, hl, hsg, g3, Option.some_bind,
            Option.none_bind]
        | vdict d =>
          rcases hb : addPath fn2 r d with _ | d2
          · simp only [addPath, rootUntaggedDiscard, hl, hsg, hb, g3,
              Option.some_bind, Option.map_none', Option.none_bind]
          · simp only [addPath, rootUntaggedDiscard, hl, hsg, hb, g3, g1, e5,
              Option.some_bind, Option.map_some']

/-- Two scan-loop operations commute (as partial maps) on every dict whose
root untagged set is a sorted set. -/
def OComm (g1 g2 : Dict → Option Dict) : Prop :=
  ∀ t : Dict, RootSet t → (g1 t).bind g2 = (g2 t).bind g1

/-- A scan-loop operation preserves the root invariant. -/
def OPres (g : Dict → Option Dict) : Prop :=
  ∀ {t t' : Dict}, RootSet t → g t = some t' → RootSet t'

theorem oComm_symm {g1 g2 : Dict → Option Dict} (h : OComm g1 g2) : OComm g2 g1 :=
  fun t ht => (h t ht).symm

theorem oComm_comp {g1 g2 g3 : Dict → Option Dict} (h12 : OComm g1 g2)
    (h13 : OComm g1 g3) (p2 : OPres g2) :
    OComm g1 (fun t => (g2 t).bind g3) := by
  intro t ht
  rcases h1 : g1 t with _ | v
  · have h := h12 t ht
    rw [h1, Option.none_bind] at h
    rcases h2 : g2 t with _ | u
    · simp only [h1, h2, Option.none_bind]
    · rw [h2, Option.some_bind] at h
      have hu : RootSet u := p2 ht h2
      have h' := h13 u hu
      rw [← h, Option.none_bind] at h'
      simp only [h1, h2, Option.none_bind, Option.some_bind]
      exact h'
  · have h := h12 t ht
    rw [h1, Option.some_bind] at h
    rcases h2 : g2 t with _ | u
    · rw [h2, Option.none_bind] at h
      simp only [h1, h2, Option.some_bind, Option.none_bind, h]
    · rw [h2, Option.some_bind] at h
      have hu : RootSet u := p2 ht h2
      have h' := h13 u hu
      simp only [h1, h2, Option.some_bind]
      rw [h]
      exact h'

theorem oPres_comp {g2 g3 : Dict → Option Dict} (p2 : OPres g2) (p3 : OPres g3) :
    OPres (fun t => (g2 t).bind g3) := by
  intro t t' ht he
  rcases h2 : g2 t with _ | u
  · simp only [h2, Option.none_bind] at he
    cases he
  · simp only [h2, Option.some_bind] at he
    exact p3 (p2 ht h2) he

theorem foldlM_cons_bind (fn tg : Str) (tl : List Str) (t : Dict) :
    (tg :: tl).foldlM (fun a tg => addPage fn tg a) t =
      (addPage fn tg t).bind
        (fun a => tl.foldlM (fun a tg => addPage fn tg a) a) := by
  rcases h : addPage fn tg t with _ | a
  · simp [List.foldlM_cons, h]
  · simp [List.foldlM_cons, h]

theorem oComm_foldTags {g : Dict → Option Dict} {fn : Str} (tags : List Str)
    (hg : ∀ tg, OComm g (fun t => addPage fn tg t)) :
    OComm g (fun t => tags.foldlM (fun a tg => addPage fn tg a) t) := by
  induction tags with
  | nil =>
    intro t ht
    simp only [List.foldlM_nil, Option.pure_def, Option.some_bind, Option.bind_some]
  | cons tg tl ih =>
    have h := oComm_comp (hg tg) ih
      (fun ht he => addPath_pres _ ht he)
    intro t ht
    have h' := h t ht
    simp only [foldlM_cons_bind] at h' ⊢
    exact h'

theorem oPres_foldTags {fn : Str} (tags : List Str) :
    OPres (fun t => tags.foldlM (fun a tg => addPage fn tg a) t) := by
  induction tags with
  | nil =>
    intro t t' ht he
    simp only [List.foldlM_nil, Option.pure_def, Option.some.injEq] at he
    subst he
    exact ht
  | cons tg tl ih =>
    intro t t' ht he
    simp only [] at he
    rw [foldlM_cons_bind] at he
    rcases h2 : addPage fn tg t with _ | u
    · rw [h2, Option.none_bind] at he
      cases he
    · rw [h2, Option.some_bind] at he
      exact ih (addPath_pres _ ht h2) he

theorem rA_opres (fn : Str) : OPres (rootUntaggedAdd fn) :=
  fun ht he => rootAdd_pres ht he

theorem rD_opres (fn : Str) : OPres (rootUntaggedDiscard fn) :=
  fun ht he => rootDiscard_pres ht he

theorem oComm_g_tagged {g : Dict → Option Dict} {fn2 : Str} (tags2 : List Str)
    (hA : OComm g (rootUntaggedAdd fn2))
    (hD : OComm g (rootUntaggedDiscard fn2))
    (hP : ∀ tg, OComm g (fun t => addPage fn2 tg t)) :
    OComm g (fun t => (rootUntaggedAdd fn2 t).bind (fun t1 =>
      (rootUntaggedDiscard fn2 t1).bind (fun t2 =>
        tags2.foldlM (fun a tg => addPage fn2 tg a) t2))) :=
  oComm_comp hA
    (oComm_comp hD (oComm_foldTags tags2 hP) (rD_opres fn2)) (rA_opres fn2)

theorem oComm_rA_core {fn1 fn2 : Str} (tags2 : List Str) (hf : fn1 ≠ fn2) :
    OComm (rootUntaggedAdd fn1) (fun t => (rootUntaggedAdd fn2 t).bind (fun t1 =>
      (rootUntaggedDiscard fn2 t1).bind (fun t2 =>
        tags2.foldlM (fun a tg => addPage fn2 tg a) t2))) :=
  oComm_g_tagged tags2 (fun t ht => rA_rA_comm ht hf)
    (fun t ht => rA_rD_comm ht hf)
    (fun tg t ht => rA_addPath_comm (splitOnDash tg) ht hf)

theorem oComm_rD_core {fn1 fn2 : Str} (tags2 : List Str) (hf : fn1 ≠ fn2) :
    OComm (rootUntaggedDiscard fn1) (fun t => (rootUntaggedAdd fn2 t).bind (fun t1 =>
      (rootUntaggedDiscard fn2 t1).bind (fun t2 =>
        tags2.foldlM (fun a tg => addPage fn2 tg a) t2))) :=
  oComm_g_tagged tags2 (fun t ht => oComm_symm (fun u hu => rA_rD_comm hu (Ne.symm hf)) t ht)
    (fun t ht => rD_rD_comm ht)
    (fun tg t ht => rD_addPath_comm (splitOnDash tg) ht hf)

theorem oComm_aP_core {fn1 fn2 : Str} (tg1 : Str) (tags2 : List Str) (hf : fn1 ≠ fn2) :
    OComm (fun t => addPage fn1 tg1 t)
      (fun t => (rootUntaggedAdd fn2 t).bind (fun t1 =>
        (rootUntaggedDiscard fn2 t1).bind (fun t2 =>
          tags2.foldlM (fun a tg => addPage fn2 tg a) t2))) :=
  oComm_g_tagged tags2
    (fun t ht => (rA_addPath_comm (splitOnDash tg1) ht (Ne.symm hf)).symm)
    (fun t ht => (rD_addPath_comm (splitOnDash tg1) ht (Ne.symm hf)).symm)
    (fun tg t ht => addPath_comm (splitOnDash tg1) (splitOnDash tg) fn1 fn2 t hf)

theorem oComm_core_core {fn1 fn2 : Str} (tags1 tags2 : List Str) (hf : fn1 ≠ fn2) :
    OComm
      (fun t => (rootUntaggedAdd fn1 t).bind (fun t1 =>
        (rootUntaggedDiscard fn1 t1).bind (fun t2 =>
          tags1.foldlM (fun a tg => addPage fn1 tg a) t2)))
      (fun t => (rootUntaggedAdd fn2 t).bind (fun t1 =>
        (rootUntaggedDiscard fn2 t1).bind (fun t2 =>
          tags2.foldlM (fun a tg => addPage fn2 tg a) t2))) :=
  oComm_symm (oComm_g_tagged tags1
    (oComm_symm (oComm_rA_core tags2 hf))
    (oComm_symm (oComm_rD_core tags2 hf))
    (fun tg => oComm_symm (oComm_aP_core tg tags2 hf)))

theorem processLines_opres (fn : Str) (lines : List Str) :
    OPres (fun t => processLines fn t lines) := by
  intro t t' ht he
  simp only [processLines_eq] at he
  by_cases h0 : lines.isEmpty
  · simp only [if_pos h0, Option.some.injEq] at he
    subst he
    exact ht
  · rw [if_neg h0] at he
    by_cases h1 : (fileTags lines).isEmpty
    · rw [if_pos h1] at he
      exact rootAdd_pres ht he
    · rw [if_neg h1] at he
      exact oPres_comp (rA_opres fn)
        (oPres_comp (rD_opres fn) (oPres_foldTags _)) ht he

theorem processLines_oComm (fn1 fn2 : Str) (l1 l2 : List Str) (hf : fn1 ≠ fn2) :
    OComm (fun t => processLines fn1 t l1) (fun t => processLines fn2 t l2) := by
  intro t ht
  by_cases h10 : l1.isEmpty
  · have e1 : ∀ u : Dict, processLines fn1 u l1 = some u := by
      intro u
      rw [processLines_eq, if_pos h10]
    simp only [e1, Option.some_bind, Option.bind_some]
  · by_cases h20 : l2.isEmpty
    · have e2 : ∀ u : Dict, processLines fn2 u l2 = some u := by
        intro u
        rw [processLines_eq, if_pos h20]
      simp only [e2, Option.some_bind, Option.bind_some]
    · simp only [processLines_eq, if_neg h10, if_neg h20]
      by_cases h1 : (fileTags l1).isEmpty <;> by_cases h2 : (fileTags l2).isEmpty
      · simp only [if_pos h1, if_pos h2]
        exact rA_rA_comm ht hf
      · simp only [if_pos h1, if_neg h2]
        exact oComm_rA_core (fileTags l2) hf t ht
      · simp only [if_neg h1, if_pos h2]
        exact oComm_symm (oComm_rA_core (fileTags l1) (Ne.symm hf)) t ht
      · simp only [if_neg h1, if_neg h2]
        exact oComm_core_core (fileTags l1) (fileTags l2) hf t ht

theorem buildTree_foldl_perm {l1 l2 : List (Str × Str)}
    (hperm : List.Perm l1 l2) :
    (l1.map Prod.fst).Nodup →
    ∀ z : Option Dict, (∀ u, z = some u → RootSet u) →
      l1.foldl (fun acc f => acc.bind (fun t => processLines f.1 t (pyLines f.2))) z =
      l2.foldl (fun acc f => acc.bind (fun t => processLines f.1 t (pyLines f.2))) z := by
  induction hperm with
  | nil =>
    intro _ z _
    rfl
  | cons x h12 ih =>
    intro hnd z hz
    simp only [List.foldl_cons]
    refine ih ?_ _ ?_
    · exact (List.nodup_cons.mp (by simpa using hnd)).2
    · intro u hu
      rcases hzv : z with _ | t
      · rw [hzv, Option.none_bind] at hu
        cases hu
      · rw [hzv, Option.some_bind] at hu
        exact processLines_opres x.1 (pyLines x.2) (hz t hzv) hu
  | swap x y l =>
    intro hnd z hz
    have hxy : y.1 ≠ x.1 := by
      simp only [List.map_cons, List.nodup_cons, List.mem_cons] at hnd
      exact fun hh => hnd.1 (Or.inl hh)
    have hacc :
        (z.bind (fun t => processLines y.1 t (pyLines y.2))).bind
            (fun t => processLines x.1 t (pyLines x.2)) =
          (z.bind (fun t => processLines x.1 t (pyLines x.2))).bind
            (fun t => processLines y.1 t (pyLines y.2)) := by
      rcases hzv : z with _ | t
      · rfl
      · simp only [Option.some_bind]
        exact processLines_oComm y.1 x.1 (pyLines y.2) (pyLines x.2) hxy t
          (hz t hzv)
    simp only [List.foldl_cons]
    rw [hacc]
  | trans h1 h2 ih1 ih2 =>
    intro hnd z hz
    rw [ih1 hnd z hz]
    exact ih2 (((h1.map Prod.fst).nodup_iff).mp hnd) z hz

theorem buildTree_perm {files1 files2 : List (Str × Str)}
    (hperm : List.Perm files1 files2)
    (hnd : (files1.map Prod.fst).Nodup) :
    buildTree files1 = buildTree files2 := by
  rw [buildTree, buildTree]
  refine buildTree_foldl_perm hperm hnd (some newNode) (fun u hu => ?_)
  injection hu with h
  subst h
  exact ⟨[], rfl, List.Pairwise.nil⟩

/-- C10: for a directory listing with pairwise-distinct file names, the
output of `generate_page_index` does not depend on the order in which the
listing presents the entries. -/
theorem C10_order_independence (d1 d2 : List DirEntry)
    (hperm : List.Perm d1 d2)
    (hnd : (d1.map DirEntry.name).Nodup) :
    generate_page_index d1 = generate_page_index d2 := by
  have hscan : List.Perm (filesToScan d1) (filesToScan d2) := hperm.filter _
  have hmapperm :
      List.Perm ((filesToScan d1).map (fun f => (f.name, f.content)))
        ((filesToScan d2).map (fun f => (f.name, f.content))) := hscan.map _
  have hnd' :
      (((filesToScan d1).map (fun f => (f.name, f.content))).map Prod.fst).Nodup := by
    have hsub : List.Sublist (filesToScan d1) d1 := List.filter_sublist _
    simp only [List.map_map]
    exact ((hsub.map _).nodup hnd)
  have hbt : buildTreeOfDir d1 = buildTreeOfDir d2 := by
    rw [buildTreeOfDir, buildTreeOfDir]
    exact buildTree_perm hmapperm hnd'
  rw [generate_page_index, generate_page_index, hbt]

theorem C10_order_independence_witness :
    generate_page_index
        [⟨"B.md".data, true, "Tags: X\n".data⟩, ⟨"A.md".data, true, []⟩] =
      generate_page_index
        [⟨"A.md".data, true, []⟩, ⟨"B.md".data, true, "Tags: X\n".data⟩] :=
  C10_order_independence _ _
    (List.Perm.swap _ _ _) (by decide)
